import Mathlib

/-!
# Inverted-index MapReduce (`main.cpp`): a shallow embedding

The program builds an inverted index with a pool of mapper threads (`Map`) and a
pool of reducer threads (`Reduce`).  This file embeds the sequential code of both
thread bodies, of `compare`, of the two string helpers and of `ReadFilenames`,
and proves properties of them.

Conventions of the embedding

* `char` / `unsigned char` is a `Nat` (a byte value); `std::string` is the list of its
  bytes.  `tolower`, `isalpha` and `isspace` are those of the "C" locale, which is the
  one in force because the program never calls `setlocale`.
* `std::set<unsigned int>` is the list of its elements in iteration order
  (ascending, no repetition); `DocSetOK` is that representation invariant.
* `std::unordered_map<K, V>` is an association list `List (K × V)`.  The order of the
  list stands for the (unspecified) iteration order of the hash table, so a statement
  proved for every list holds for every iteration order.  `find` and `operator[]` act
  on the first entry with the key; `UMap.KeysOK` says keys are not repeated.
* `unsigned int` arithmetic is taken modulo `2 ^ 32`.
* Mappers. A mapper writes only to its own shard `partial_lists[t_id]`, so the shards at
  the end barrier are those of running the claims one after the other. The map phase is
  a fold over a `schedule`, the list of the mappers that claim the successive files of the
  queue, and statements are proved for every schedule. The section guarded by
  `mutex_start_reducers` is a step on the state, run once per mapper.
* Reducers. `Reduce` writes to the bucket of the letter it has claimed and, through
  `operator[]` in `partial_lists[i][curr_char]`, to every shard, with no lock. The loop of
  `Reduce` is embedded as the sequential code it is, run by one reducer. A run with two or
  more reducers makes unsynchronised writes to containers other reducers read; the
  sequential code does not determine its outcome, and `run` gives none for it.
-/

namespace MapReduce

/-! ## Containers -/

/-- The value of `std::string`: its bytes. -/
abbrev Str := List Nat

/-- The value of `std::set<unsigned int>`: its elements in iteration order. -/
abbrev DocSet := List Nat

/-- The value of `std::unordered_map<K, V>`: its entries in iteration order. -/
abbrev UMap (K V : Type) := List (K × V)

/-- The value of `unordered_map<string, set<unsigned int>>` (a letter's word table). -/
abbrev Bucket := UMap Str DocSet

/-- The value of `unordered_map<char, unordered_map<string, set<unsigned int>>>`. -/
abbrev Shard := UMap Nat Bucket

/-- The call `m.find(k)`: the mapped value of the entry with key `k`, `none` for `m.end()`. -/
def UMap.find {K V : Type} [DecidableEq K] (k : K) : UMap K V → Option V
  | [] => none
  | (k', v) :: m => if k' = k then some v else UMap.find k m

/-- The statement `f(m[k])`: `operator[]` yields a reference to the value mapped to `k`,
inserting a value-initialised entry (`dflt`) when the key is absent, and `f` updates the
referenced value in place. A plain read `m[k]` is `f = id`. -/
def UMap.update {K V : Type} [DecidableEq K] (k : K) (dflt : V) (f : V → V) :
    UMap K V → UMap K V
  | [] => [(k, f dflt)]
  | (k', v) :: m => if k' = k then (k', f v) :: m else (k', v) :: UMap.update k dflt f m

/-- The value the reference `m[k]` designates: the mapped value, value-initialised when
the key is absent. -/
def UMap.valueAt {K V : Type} [DecidableEq K] (k : K) (dflt : V) (m : UMap K V) : V :=
  (UMap.find k m).getD dflt

/-- Keys of an `unordered_map` are unique. -/
def UMap.KeysOK {K V : Type} (m : UMap K V) : Prop := (m.map Prod.fst).Nodup

/-- The call `s.insert(x)` on a `std::set<unsigned int>`: the element is placed at its
position in ascending order, and nothing happens when it is already there. -/
def setInsert (x : Nat) : DocSet → DocSet
  | [] => [x]
  | y :: ys => if x < y then x :: y :: ys else if x = y then y :: ys else y :: setInsert x ys

/-- The call `s.insert(first, last)` on a `std::set<unsigned int>`: every element of the
range is inserted in turn. -/
def setInsertRange (range : DocSet) (s : DocSet) : DocSet :=
  range.foldl (fun acc x => setInsert x acc) s

/-- Representation invariant of `std::set<unsigned int>`: strictly ascending. -/
def DocSetOK (s : DocSet) : Prop := s.Pairwise (· < ·)

/-- Representation invariant of a word table: unique keys, every set strictly ascending. -/
def BucketOK (b : Bucket) : Prop := UMap.KeysOK b ∧ ∀ e ∈ b, DocSetOK e.2

/-- Representation invariant of a shard: unique letters, every word table well formed. -/
def ShardOK (sh : Shard) : Prop := UMap.KeysOK sh ∧ ∀ e ∈ sh, BucketOK e.2

instance (s : DocSet) : Decidable (DocSetOK s) := by unfold DocSetOK; infer_instance
instance {K V : Type} [DecidableEq K] (m : UMap K V) : Decidable (UMap.KeysOK m) := by
  unfold UMap.KeysOK; infer_instance
instance (b : Bucket) : Decidable (BucketOK b) := by unfold BucketOK; infer_instance
instance (sh : Shard) : Decidable (ShardOK sh) := by unfold ShardOK; infer_instance

/-! ## String helpers (`ToLowerCase`, `RemoveUnwantedCharacters`) -/

/-- The function `tolower` of the "C" locale on an `unsigned char` value. -/
def tolower (c : Nat) : Nat := if 65 ≤ c ∧ c ≤ 90 then c + 32 else c

/-- The function `isalpha` of the "C" locale on an `unsigned char` value. -/
def isalpha (c : Nat) : Bool := (65 ≤ c && c ≤ 90) || (97 ≤ c && c ≤ 122)

/-- The function `isspace` of the "C" locale: space, `\t`, `\n`, `\v`, `\f`, `\r`. -/
def isspace (c : Nat) : Bool := c == 32 || (9 ≤ c && c ≤ 13)

/-- The function `ToLowerCase`: every character is replaced by its `tolower`. -/
def ToLowerCase (str : Str) : Str := str.map tolower

/-- The function `RemoveUnwantedCharacters`: the characters for which `isalpha` holds, in order. -/
def RemoveUnwantedCharacters : Str → Str
  | [] => []
  | c :: rest =>
    if isalpha c then c :: RemoveUnwantedCharacters rest else RemoveUnwantedCharacters rest

/-- The two calls `Map` makes on each token, in the order it makes them. -/
def normalize (word : Str) : Str := RemoveUnwantedCharacters (ToLowerCase word)

/-! ## Token extraction (`file_in >> word`) -/

/-- The successive values `file_in >> word` gives on a stream holding `input`: leading
whitespace is skipped and characters are taken up to the next whitespace or the end;
extraction fails (the loop ends) when only whitespace is left. `cur` is the token being
read, most recent character first. -/
def extractTokens : Str → Str → List Str
  | [], cur => if cur = [] then [] else [cur.reverse]
  | c :: rest, cur =>
    if isspace c then
      if cur = [] then extractTokens rest [] else cur.reverse :: extractTokens rest []
    else extractTokens rest (c :: cur)

/-- The tokens of a document. -/
def tokens (input : Str) : List Str := extractTokens input []

/-- The bytes of an ASCII text, for writing examples. -/
def bytes (s : String) : Str := s.toList.map Char.toNat

/-! ## Shared state (`MapperUtils`, `ReducerUtils`) -/

/-- Element `i` of a `std::vector` replaced by `f` of it (`f(v[i])` through the reference
`v[i]`). An index past the end leaves the vector as it is. -/
def vecUpdate {α : Type} (f : α → α) : Nat → List α → List α
  | _, [] => []
  | 0, x :: xs => f x :: xs
  | i + 1, x :: xs => x :: vecUpdate f i xs

/-- The data fields of `struct MapperUtils`. `semaphore` is the number of units posted to
`*semaphore`, which starts at 0 (`sem_init(&semaphore, 0, 0)`). -/
structure MapperUtils where
  partial_lists : List Shard
  file_ids : UMap Str Nat
  queue_tasks : List Str
  semaphore : Nat
  num_reducer_threads : Nat
  sem_activated : Nat
deriving DecidableEq

/-- The constructor `MapperUtils::MapperUtils`: `partial_lists.resize(num_mapper_threads)`
gives that many empty shards, the flag starts at 0. The registry and the queue start empty
and are filled by `ReadFilenames`. -/
def MapperUtils.init (num_mapper_threads reducer_threads : Nat) : MapperUtils :=
  { partial_lists := List.replicate num_mapper_threads [],
    file_ids := [],
    queue_tasks := [],
    semaphore := 0,
    num_reducer_threads := reducer_threads,
    sem_activated := 0 }

/-! ## `ReadFilenames` -/

/-- The loop of `ReadFilenames` from iteration `i` on. The list holds the successive values
that `getline` leaves in `curr_filename`; each is pushed on the queue and registered with
`(*file_id)[curr_filename] = i + 1`. -/
def ReadFilenamesLoop : List Str → Nat → List Str × UMap Str Nat → List Str × UMap Str Nat
  | [], _, st => st
  | curr_filename :: rest, i, (queue_filenames, file_id) =>
    ReadFilenamesLoop rest (i + 1)
      (queue_filenames ++ [curr_filename],
       UMap.update curr_filename 0 (fun _ => (i + 1) % 2 ^ 32) file_id)

/-- The state of an `ifstream`: `none` once `eofbit` or `failbit` is set, otherwise the
characters not yet read. -/
abbrev Stream := Option Str

/-- The characters of a line: up to the first `'\n'` excluded. -/
def lineOf : Str → Str
  | [] => []
  | c :: rest => if c = 10 then [] else c :: lineOf rest

/-- What follows the first `'\n'`: `none` when there is no `'\n'`, so that reading the
line has reached the end of the file and set `eofbit`. -/
def afterLine : Str → Stream
  | [] => none
  | c :: rest => if c = 10 then some rest else afterLine rest

/-- The call `getline(file_in, str)`. On a stream that is not good the string is left as
it is. Otherwise the string is erased and receives the characters up to the next `'\n'`,
which is consumed, or up to the end of the file. The result is the stream and the
string. -/
def getline (file_in : Stream) (str : Str) : Stream × Str :=
  match file_in with
  | none => (none, str)
  | some input => (afterLine input, lineOf input)

/-- The value of a sequence of decimal digits. -/
def digitsValue (digits : Str) : Nat := digits.foldl (fun acc c => 10 * acc + (c - 48)) 0

/-- The call `stoi(line)` followed by the conversion to `unsigned int`: leading
whitespace is skipped, a sign is accepted, the digits that follow are read and what comes
after them is ignored. The result is `none` when `stoi` throws: `invalid_argument` without
a digit, `out_of_range` outside the range of `int`. A negative value wraps modulo
`2 ^ 32`. -/
def stoi (line : Str) : Option Nat :=
  let skipped := line.dropWhile isspace
  let negative := skipped.head? = some 45
  let unsigned := if skipped.head? = some 45 ∨ skipped.head? = some 43 then skipped.tail
    else skipped
  let digits := unsigned.takeWhile (fun c => 48 ≤ c && c ≤ 57)
  if digits = [] then none
  else if negative then
    if digitsValue digits ≤ 2147483648 then some ((4294967296 - digitsValue digits) % 4294967296)
    else none
  else if digitsValue digits ≤ 2147483647 then some (digitsValue digits)
  else none

/-- The values `getline(file_in, curr_filename)` leaves in `curr_filename` in the
`count_files` iterations of the loop of `ReadFilenames`. The result of `getline` is not
tested, so past the end of the file the name of the iteration before is kept. -/
def namesRead : Nat → Stream → Str → List Str
  | 0, _, _ => []
  | count + 1, file_in, curr_filename =>
    (getline file_in curr_filename).2 ::
      namesRead count (getline file_in curr_filename).1 (getline file_in curr_filename).2

/-- How `ReadFilenames` ends: with `exit(1)` on a manifest that cannot be opened, with
the exception of `stoi`, which nothing catches (the process is aborted), or with the queue
and the registry filled. -/
inductive ReadResult where
  | cannotOpen : ReadResult
  | aborted : ReadResult
  | filled : List Str × UMap Str Nat → ReadResult
deriving DecidableEq

/-- The function `ReadFilenames`. `manifest` is the content of the file `input_filename`,
`none` when it cannot be opened. The first line is read and converted with `stoi`, then
the loop runs over the names read. -/
def ReadFilenames (manifest : Option Str) (queue_filenames : List Str)
    (file_id : UMap Str Nat) : ReadResult :=
  match manifest with
  | none => ReadResult.cannotOpen
  | some input =>
    match stoi (getline (some input) []).2 with
    | none => ReadResult.aborted
    | some count_files =>
      ReadResult.filled
        (ReadFilenamesLoop (namesRead count_files (getline (some input) []).1 []) 0
          (queue_filenames, file_id))

/-- The state after the call `ReadFilenames(&mapper_utils->queue_tasks, ..,
&mapper_utils->file_ids)` of `main`, which fills the two fields in place. -/
def afterRead (u : MapperUtils) (read : List Str × UMap Str Nat) : MapperUtils :=
  { u with queue_tasks := read.1, file_ids := read.2 }

/-! ## `Map` -/

/-- The body of `while (file_in >> word)` in `Map` for one extracted token. -/
def MapToken (file_id : Nat) (shard : Shard) (word : Str) : Shard :=
  match normalize word with
  | [] => shard
  | first_char :: rest =>
    UMap.update first_char []
      (UMap.update (first_char :: rest) []
        (fun ids => if file_id ∈ ids then ids else setInsert file_id ids))
      shard

/-- The token loop of `Map` on one file. `file` is what `ifstream file_in(curr_filename)`
finds: `none` when the file cannot be opened, in which case the stream is in a failed
state, `file_in >> word` is false at once and the body never runs. -/
def MapFile (file : Option Str) (file_id : Nat) (shard : Shard) : Shard :=
  match file with
  | none => shard
  | some input => (tokens input).foldl (MapToken file_id) shard

/-- One iteration of the queue-draining loop of `Map`, run by the mapper `t_id`: the
front of the queue is claimed, its ID looked up with `file_ids[curr_filename]`, and the
file is mapped into `partial_lists[t_id]`. On an empty queue the loop is left. -/
def MapClaim (fs : Str → Option Str) (t_id : Nat) (u : MapperUtils) : MapperUtils :=
  match u.queue_tasks with
  | [] => u
  | curr_filename :: queue =>
    let file_id := UMap.valueAt curr_filename 0 u.file_ids
    { u with
      queue_tasks := queue,
      file_ids := UMap.update curr_filename 0 id u.file_ids,
      partial_lists := vecUpdate (MapFile (fs curr_filename) file_id) t_id u.partial_lists }

/-- The map phase: `schedule` lists, in the order the queue lock is taken, the mapper
that claims each successive file. A mapper writes only to its own shard, so the shards
at the end barrier are those of running the claims one after the other. -/
def MapPhase (fs : Str → Option Str) (schedule : List Nat) (u : MapperUtils) : MapperUtils :=
  schedule.foldl (fun u t_id => MapClaim fs t_id u) u

/-- The loop `for (i = 0; i < num_reducer_threads; i++) sem_post(semaphore)`. -/
def semPostLoop : Nat → Nat → Nat
  | 0, semaphore => semaphore
  | k + 1, semaphore => semPostLoop k (semaphore + 1)

/-- The section of `Map` guarded by `mutex_start_reducers`, executed by one mapper. -/
def GateSection (u : MapperUtils) : MapperUtils :=
  if u.sem_activated = 0 then
    { u with semaphore := semPostLoop u.num_reducer_threads u.semaphore, sem_activated := 1 }
  else u

/-- The guarded section executed by each mapper of `order` in turn (the mutex makes the
executions sequential; the section does not depend on the mapper that runs it). -/
def GatePhase (order : List Nat) (u : MapperUtils) : MapperUtils :=
  order.foldl (fun u _ => GateSection u) u

/-! ## `compare` and `Reduce` -/

/-- The comparison `operator<` on `std::string`: lexicographic on `unsigned char` values,
a proper prefix being smaller. -/
def strLt : Str → Str → Bool
  | [], [] => false
  | [], _ :: _ => true
  | _ :: _, [] => false
  | a :: as, b :: bs => if a < b then true else if b < a then false else strLt as bs

/-- The comparator `compare`. -/
def compare (a b : Str × DocSet) : Bool :=
  if a.2.length ≠ b.2.length then decide (a.2.length > b.2.length) else strLt a.1 b.1

/-- Insertion of one entry before the first entry it precedes. -/
def sortInsert (x : Str × DocSet) : List (Str × DocSet) → List (Str × DocSet)
  | [] => [x]
  | y :: ys => if compare x y then x :: y :: ys else y :: sortInsert x ys

/-- The call `sort(vec.begin(), vec.end(), compare)`. The standard leaves the algorithm
open; this is insertion sort with the same comparator. `compare` orders entries with
distinct words totally, so every correct sort returns the same vector (`sort_unique`
below). -/
def stdSort : List (Str × DocSet) → List (Str × DocSet)
  | [] => []
  | x :: xs => sortInsert x (stdSort xs)

/-- The statements run for one entry of a shard's word table in the merge loop. -/
def mergeEntry (final_list : Bucket) (e : Str × DocSet) : Bucket :=
  match UMap.find e.1 final_list with
  | some _ => UMap.update e.1 [] (setInsertRange e.2) final_list
  | none => UMap.update e.1 [] (fun _ => e.2) final_list

/-- The inner loop `for (auto& [key, partial_set] : partial_list)`. -/
def mergePartial (final_list : Bucket) (partial_list : Bucket) : Bucket :=
  partial_list.foldl mergeEntry final_list

/-- The merge loop of `Reduce` over the shards from index `i` on. The access
`partial_lists[i][curr_char]` is `operator[]`, so it leaves in shard `i` an (empty) word
table for `curr_char` when there was none. The result is the shards and the bucket after
the loop. -/
def mergeLoop (curr_char : Nat) : List Shard → Bucket → List Shard × Bucket
  | [], final_list => ([], final_list)
  | shard :: rest, final_list =>
    let partial_list := UMap.valueAt curr_char [] shard
    let r := mergeLoop curr_char rest (mergePartial final_list partial_list)
    (UMap.update curr_char [] id shard :: r.1, r.2)

/-- The digits of `n` put in front of `acc`, found from the last to the first by
division by ten; `fuel` bounds the number of divisions. -/
def decimalDigits : Nat → Nat → Str → Str
  | 0, _, acc => acc
  | fuel + 1, n, acc =>
    if n < 10 then (48 + n) :: acc else decimalDigits fuel (n / 10) ((48 + n % 10) :: acc)

/-- The characters `file << *it` writes for an `unsigned int`: its digits in base ten. -/
def decimal (n : Nat) : Str := decimalDigits (n + 1) n []

/-- The loop over `occurrences`: each ID, then a space unless it is the last. -/
def writeIds : DocSet → Str
  | [] => []
  | [x] => decimal x
  | x :: y :: rest => decimal x ++ [32] ++ writeIds (y :: rest)

/-- The loop over `vec`: `word`, `":["`, the IDs, `"]\n"`. -/
def writeEntries : List (Str × DocSet) → Str
  | [] => []
  | (word, occurrences) :: rest =>
    word ++ [58, 91] ++ writeIds occurrences ++ [93, 10] ++ writeEntries rest

/-- What `Reduce` writes to the letter's file once the bucket is merged. -/
def writeBucket (final_list : Bucket) : Str :=
  if final_list = [] then [] else writeEntries (stdSort final_list)

/-- The data fields of `struct ReducerUtils`, and `files`, the files written so far, as
(name, content). `partial_lists` is the reference to the mappers' vector. -/
structure ReducerUtils where
  partial_lists : List Shard
  final_lists : UMap Nat Bucket
  queue_tasks : List Nat
  files : List (Str × Str)
deriving DecidableEq

/-- The letters `'a'` to `'z'`. -/
def letters : List Nat := (List.range 26).map (· + 97)

/-- The constructor `ReducerUtils::ReducerUtils`: one task and one empty bucket per letter. -/
def ReducerUtils.init (partial_lists : List Shard) : ReducerUtils :=
  { partial_lists := partial_lists,
    final_lists := letters.foldl (fun m c => UMap.update c [] (fun _ => []) m) [],
    queue_tasks := letters,
    files := [] }

/-- The name built by `string filename(1, curr_char); filename += ".txt";`. -/
def outputName (curr_char : Nat) : Str := [curr_char] ++ bytes ".txt"

/-- The body of the loop of `Reduce` for the claimed letter `curr_char`: merge, then
write. `canCreate` tells whether `ofstream file(filename)` opens; when it does not the
process ends with `exit(1)`, and the error holds the exit code and the files written
until then, which stay. -/
def ReduceLetter (canCreate : Str → Bool) (curr_char : Nat) (r : ReducerUtils) :
    Except (Nat × List (Str × Str)) ReducerUtils :=
  let merged := mergeLoop curr_char r.partial_lists (UMap.valueAt curr_char [] r.final_lists)
  let filename := outputName curr_char
  let r1 := { r with
    partial_lists := merged.1,
    final_lists := UMap.update curr_char [] (fun _ => merged.2) r.final_lists }
  if canCreate filename then
    Except.ok { r1 with files := r1.files ++ [(filename, writeBucket merged.2)] }
  else Except.error (1, r.files)

/-- The loop of `Reduce` run by one reducer: the letters are taken from the queue one
after the other until it is empty. -/
def ReduceLoop (canCreate : Str → Bool) :
    List Nat → ReducerUtils → Except (Nat × List (Str × Str)) ReducerUtils
  | [], r => Except.ok r
  | curr_char :: queue, r =>
    match ReduceLetter canCreate curr_char { r with queue_tasks := queue } with
    | Except.ok r1 => ReduceLoop canCreate queue r1
    | Except.error stop => Except.error stop

/-- The function `Reduce` once `sem_wait` has returned: the loop, run until the queue the
state holds is empty. -/
def Reduce (canCreate : Str → Bool) (r : ReducerUtils) :
    Except (Nat × List (Str × Str)) ReducerUtils :=
  ReduceLoop canCreate r.queue_tasks r

/-- The run of `main` with one reducer. `manifest` is the content of the manifest file
and `fs` the content of each document, `none` for a file that cannot be opened. Registry
and queue are read, the mappers drain the queue in the order `schedule`, every mapper
passes the gate, and the reducer takes its unit from the semaphore and drains the letters.
The result is the exit code and the files written, or `none` when the run has no exit
code or the sequential code does not determine it:

* `stoi` throws on the first line of the manifest and the process is aborted;
* `reduce_threads` is 0, when the process does not end normally;
* fewer units are posted than there are reducers (no mapper), so that a reducer stays
  in `sem_wait` and `pthread_join` does not return;
* `reduce_threads` is 2 or more, when the reducers write to the shards they all read
  without a lock. -/
def run (mapper_threads reduce_threads : Nat) (manifest : Option Str)
    (fs : Str → Option Str) (canCreate : Str → Bool) (schedule : List Nat) :
    Option (Nat × List (Str × Str)) :=
  let u0 := MapperUtils.init mapper_threads reduce_threads
  match ReadFilenames manifest u0.queue_tasks u0.file_ids with
  | ReadResult.cannotOpen => some (1, [])
  | ReadResult.aborted => none
  | ReadResult.filled read =>
    let u1 := MapPhase fs schedule (afterRead u0 read)
    let u2 := GatePhase (List.range mapper_threads) u1
    if reduce_threads ≠ 1 then none
    else if u2.semaphore < reduce_threads then none
    else
      match Reduce canCreate (ReducerUtils.init u2.partial_lists) with
      | Except.error stop => some stop
      | Except.ok r => some (0, r.files)

/-! ## What the shards hold -/

/-- Some token of the file normalizes to the non-empty word `w`, whose first letter is `c`.
A file that cannot be opened gives no word. -/
def FileGives (file : Option Str) (c : Nat) (w : Str) : Prop :=
  ∃ input, file = some input ∧
    ∃ tok ∈ tokens input, normalize tok = w ∧ ∃ rest, w = c :: rest

/-- Some shard holds the ID `d` for the word `w` in its table for the letter `c`. -/
def ShardsHave (shards : List Shard) (c : Nat) (w : Str) (d : Nat) : Prop :=
  ∃ sh ∈ shards, d ∈ UMap.valueAt w [] (UMap.valueAt c [] sh)

/-- Some shard has the word `w` in its table for the letter `c`. -/
def ShardsHaveWord (shards : List Shard) (c : Nat) (w : Str) : Prop :=
  ∃ sh ∈ shards, (UMap.find w (UMap.valueAt c [] sh)).isSome

/-! ## The end-to-end scenario of the specification -/

/-- The two documents of the scenario: `file1` holds `Cat cat DOG!`, `file2` holds
`dog cat`; no other file exists. -/
def scenarioFiles (name : Str) : Option Str :=
  if name = bytes "file1" then some (bytes "Cat cat DOG!")
  else if name = bytes "file2" then some (bytes "dog cat")
  else none

/-! ## The output format in the words of the specification -/

/-- The string `s` is the decimal rendering of the number `n`: it is not empty, it is
made of the digits `0` to `9`, it does not start with `0` unless it is `0` itself, and
read in base ten it gives `n`. -/
def IsDecimalOf (s : Str) (n : Nat) : Prop :=
  s ≠ [] ∧ (∀ c ∈ s, 48 ≤ c ∧ c ≤ 57) ∧ (s.head? = some 48 → s = [48]) ∧
    s.foldl (fun acc c => 10 * acc + (c - 48)) 0 = n

/-- The string `line` is the record of the specification for the entry `e`:
`<word>:[<id1> <id2> ... <idN>]` and the end of line, each `<id>` being the decimal
rendering of the ID at its place, with one space between two of them. -/
def IsRecordOf (line : Str) (e : Str × DocSet) : Prop :=
  ∃ ids : List Str, List.Forall₂ IsDecimalOf ids e.2 ∧
    line = e.1 ++ bytes ":[" ++ List.intercalate (bytes " ") ids ++ bytes "]\n"

/-! ## Lemmas on the containers -/

section UMapLemmas
theorem UMap.find_update {K V : Type} [DecidableEq K] (k k' : K) (d : V) (f : V → V) (m : UMap K V) :
    UMap.find k' (UMap.update k d f m) =
      if k = k' then some (f (UMap.valueAt k d m)) else UMap.find k' m := by
  induction m with
  | nil =>
    by_cases h : k = k' <;> simp [UMap.update, UMap.find, UMap.valueAt, h]
  | cons e m ih =>
    obtain ⟨k0, v0⟩ := e
    by_cases h0 : k0 = k
    · subst h0
      by_cases h : k0 = k' <;> simp [UMap.update, UMap.find, UMap.valueAt, h]
    · by_cases h : k = k'
      · subst h
        simp [UMap.update, UMap.find, UMap.valueAt, h0, ih]
      · by_cases h1 : k0 = k'
        · subst h1; simp [UMap.update, UMap.find, h0, h]
        · simp [UMap.update, UMap.find, h0, h, h1, ih]

theorem UMap.valueAt_update {K V : Type} [DecidableEq K] (k k' : K) (d : V) (f : V → V) (m : UMap K V) :
    UMap.valueAt k' d (UMap.update k d f m) =
      if k = k' then f (UMap.valueAt k d m) else UMap.valueAt k' d m := by
  unfold UMap.valueAt
  rw [UMap.find_update]
  by_cases h : k = k' <;> simp [h, UMap.valueAt]

theorem UMap.keys_update {K V : Type} [DecidableEq K] (k : K) (d : V) (f : V → V) (m : UMap K V) :
    (UMap.update k d f m).map Prod.fst =
      if k ∈ m.map Prod.fst then m.map Prod.fst else m.map Prod.fst ++ [k] := by
  induction m with
  | nil => simp [UMap.update]
  | cons e m ih =>
    obtain ⟨k0, v0⟩ := e
    by_cases h0 : k0 = k
    · subst h0; simp [UMap.update]
    · have h0' : ¬ k = k0 := fun h => h0 h.symm
      simp only [UMap.update, h0, if_false, List.map_cons, ih, List.mem_cons, h0', false_or]
      split <;> simp

theorem UMap.keysOK_update {K V : Type} [DecidableEq K] (k : K) (d : V) (f : V → V) (m : UMap K V)
    (h : UMap.KeysOK m) : UMap.KeysOK (UMap.update k d f m) := by
  unfold UMap.KeysOK at *
  rw [UMap.keys_update]
  split
  · exact h
  · rename_i hk
    rw [List.nodup_append]
    refine ⟨h, List.nodup_singleton k, ?_⟩
    intro a ha hb
    simp at hb
    subst hb
    exact hk ha

theorem UMap.find_isSome_iff {K V : Type} [DecidableEq K] (k : K) (m : UMap K V) :
    (UMap.find k m).isSome ↔ k ∈ m.map Prod.fst := by
  induction m with
  | nil => simp [UMap.find]
  | cons e m ih =>
    obtain ⟨k0, v0⟩ := e
    by_cases h0 : k0 = k
    · simp [UMap.find, h0]
    · have h0' : ¬ k = k0 := fun h => h0 h.symm
      simp [UMap.find, h0, h0', ih]

theorem UMap.mem_of_find {K V : Type} [DecidableEq K] (k : K) (v : V) (m : UMap K V) (h : UMap.find k m = some v) :
    (k, v) ∈ m := by
  induction m with
  | nil => simp [UMap.find] at h
  | cons e m ih =>
    obtain ⟨k0, v0⟩ := e
    by_cases h0 : k0 = k
    · simp [UMap.find, h0] at h
      simp [h0, h]
    · simp [UMap.find, h0] at h
      exact List.mem_cons_of_mem _ (ih h)

theorem UMap.find_of_mem {K V : Type} [DecidableEq K] (k : K) (v : V) (m : UMap K V) (hm : UMap.KeysOK m)
    (h : (k, v) ∈ m) : UMap.find k m = some v := by
  induction m with
  | nil => simp at h
  | cons e m ih =>
    obtain ⟨k0, v0⟩ := e
    unfold UMap.KeysOK at hm
    simp only [List.map_cons, List.nodup_cons] at hm
    rcases List.mem_cons.1 h with h1 | h1
    · injection h1 with h2 h3
      simp [UMap.find, h2, h3]
    · have hk : k ∈ m.map Prod.fst := List.mem_map.2 ⟨(k, v), h1, rfl⟩
      have h0 : ¬ k0 = k := fun h' => hm.1 (h' ▸ hk)
      simp [UMap.find, h0]
      exact ih hm.2 h1

theorem UMap.mem_update {K V : Type} [DecidableEq K] (k : K) (d : V) (f : V → V) (m : UMap K V) (e : K × V)
    (h : e ∈ UMap.update k d f m) :
    e ∈ m ∨ e = (k, f (UMap.valueAt k d m)) := by
  induction m with
  | nil =>
    simp [UMap.update] at h
    right; simp [h, UMap.valueAt, UMap.find]
  | cons e0 m ih =>
    obtain ⟨k0, v0⟩ := e0
    by_cases h0 : k0 = k
    · subst h0
      simp only [UMap.update, if_true, List.mem_cons] at h
      rcases h with h | h
      · right; simp [h, UMap.valueAt, UMap.find]
      · left; exact List.mem_cons_of_mem _ h
    · simp only [UMap.update, h0, if_false, List.mem_cons] at h
      rcases h with h | h
      · left; subst h; exact List.mem_cons_self _ _
      · rcases ih h with h1 | h1
        · left; exact List.mem_cons_of_mem _ h1
        · right; simp [h1, UMap.valueAt, UMap.find, h0]

end UMapLemmas

section SetLemmas

theorem mem_setInsert (x y : Nat) (s : DocSet) : y ∈ setInsert x s ↔ y = x ∨ y ∈ s := by
  induction s with
  | nil => simp [setInsert]
  | cons z zs ih =>
    unfold setInsert
    split
    · simp
    · split
      · rename_i h1 h2
        subst h2
        simp
      · simp only [List.mem_cons, ih]
        tauto

theorem setInsert_ok (x : Nat) (s : DocSet) (h : DocSetOK s) : DocSetOK (setInsert x s) := by
  unfold DocSetOK at *
  induction s with
  | nil => simp [setInsert]
  | cons z zs ih =>
    rw [List.pairwise_cons] at h
    unfold setInsert
    split
    · rename_i h1
      refine List.pairwise_cons.2 ⟨?_, List.pairwise_cons.2 h⟩
      intro a ha
      rcases List.mem_cons.1 ha with ha | ha
      · omega
      · have := h.1 a ha
        omega
    · split
      · exact List.pairwise_cons.2 h
      · rename_i h1 h2
        refine List.pairwise_cons.2 ⟨?_, ih h.2⟩
        intro a ha
        rcases (mem_setInsert x a zs).1 ha with ha | ha
        · omega
        · exact h.1 a ha

theorem mem_setInsertRange (r s : DocSet) (y : Nat) :
    y ∈ setInsertRange r s ↔ y ∈ r ∨ y ∈ s := by
  unfold setInsertRange
  induction r generalizing s with
  | nil => simp
  | cons z zs ih =>
    simp only [List.foldl_cons, ih, mem_setInsert, List.mem_cons]
    tauto

theorem setInsertRange_ok (r s : DocSet) (h : DocSetOK s) : DocSetOK (setInsertRange r s) := by
  unfold setInsertRange
  induction r generalizing s with
  | nil => simpa using h
  | cons z zs ih =>
    simp only [List.foldl_cons]
    exact ih _ (setInsert_ok z s h)

theorem DocSetOK.nodup {s : DocSet} (h : DocSetOK s) : s.Nodup := by
  unfold DocSetOK at h
  exact h.imp (fun hab => Nat.ne_of_lt hab)

theorem docSet_ext {s t : DocSet} (hs : DocSetOK s) (ht : DocSetOK t)
    (h : ∀ x, x ∈ s ↔ x ∈ t) : s = t := by
  have hp : s.Perm t := (List.perm_ext_iff_of_nodup hs.nodup ht.nodup).2 h
  exact List.eq_of_perm_of_sorted hp hs ht

theorem docSet_count {s : DocSet} (hs : DocSetOK s) {x : Nat} (hx : x ∈ s) : s.count x = 1 :=
  List.count_eq_one_of_mem hs.nodup hx

end SetLemmas

section GateLemmas

theorem semPostLoop_eq (k s : Nat) : semPostLoop k s = s + k := by
  induction k generalizing s with
  | zero => rfl
  | succ k ih => simp only [semPostLoop, ih]; omega

theorem GateSection_of_activated (u : MapperUtils) (h : u.sem_activated = 1) :
    GateSection u = u := by
  simp [GateSection, h]

theorem GatePhase_of_activated (order : List Nat) (u : MapperUtils) (h : u.sem_activated = 1) :
    GatePhase order u = u := by
  induction order with
  | nil => rfl
  | cons t rest ih =>
    simp only [GatePhase, List.foldl_cons, GateSection_of_activated u h]
    exact ih

theorem GatePhase_cons (t : Nat) (order : List Nat) (u : MapperUtils) :
    GatePhase (t :: order) u = GatePhase order (GateSection u) := rfl

theorem GatePhase_fired (t : Nat) (order : List Nat) (u : MapperUtils)
    (hf : u.sem_activated = 0) :
    GatePhase (t :: order) u =
      { u with semaphore := u.semaphore + u.num_reducer_threads, sem_activated := 1 } := by
  rw [GatePhase_cons]
  have h1 : GateSection u =
      { u with semaphore := u.semaphore + u.num_reducer_threads, sem_activated := 1 } := by
    simp [GateSection, hf, semPostLoop_eq]
  rw [h1]
  exact GatePhase_of_activated order _ rfl

end GateLemmas

section RegistryLemmas

theorem ReadFilenamesLoop_find_not_mem (names : List Str) (i0 : Nat) (q : List Str)
    (reg : UMap Str Nat) (f : Str) (hf : f ∉ names) :
    UMap.find f (ReadFilenamesLoop names i0 (q, reg)).2 = UMap.find f reg := by
  induction names generalizing i0 q reg with
  | nil => rfl
  | cons x rest ih =>
    simp only [List.mem_cons, not_or] at hf
    simp only [ReadFilenamesLoop]
    rw [ih _ _ _ hf.2, UMap.find_update]
    have : ¬ x = f := fun h => hf.1 h.symm
    simp [this]

theorem ReadFilenamesLoop_find_last (names : List Str) (i0 : Nat) (q : List Str)
    (reg : UMap Str Nat) (f : Str) (j : Nat) (hj : names[j]? = some f)
    (hlast : ∀ k, j < k → names[k]? ≠ some f) :
    UMap.find f (ReadFilenamesLoop names i0 (q, reg)).2 = some ((i0 + j + 1) % 2 ^ 32) := by
  induction names generalizing i0 q reg j with
  | nil => simp at hj
  | cons x rest ih =>
    simp only [ReadFilenamesLoop]
    cases j with
    | zero =>
      simp at hj
      subst hj
      have hnot : x ∉ rest := by
        intro hx
        obtain ⟨k, hk⟩ := List.getElem?_of_mem hx
        exact hlast (k + 1) (Nat.succ_pos k) (by simpa using hk)
      rw [ReadFilenamesLoop_find_not_mem _ _ _ _ _ hnot, UMap.find_update]
      simp
    | succ j =>
      have hj' : rest[j]? = some f := by simpa using hj
      have hl' : ∀ k, j < k → rest[k]? ≠ some f := by
        intro k hk
        have := hlast (k + 1) (by omega)
        simpa using this
      rw [ih (i0 + 1) _ _ j hj' hl']
      congr 2
      omega

theorem exists_last_position (names : List Str) (f : Str) (d : Nat) :
    ∀ i, names.length - i ≤ d → names[i]? = some f →
      ∃ j, i ≤ j ∧ names[j]? = some f ∧ ∀ k, j < k → names[k]? ≠ some f := by
  induction d with
  | zero =>
    intro i hd hi
    have : i < names.length := (List.getElem?_eq_some_iff.1 hi).1
    omega
  | succ d ih =>
    intro i hd hi
    by_cases hex : ∃ k, i < k ∧ names[k]? = some f
    · obtain ⟨k, hk, hkf⟩ := hex
      obtain ⟨j, hj1, hj2, hj3⟩ := ih k (by omega) hkf
      exact ⟨j, by omega, hj2, hj3⟩
    · refine ⟨i, le_refl i, hi, ?_⟩
      intro k hk hkf
      exact hex ⟨k, hk, hkf⟩

end RegistryLemmas

/-- C6. Starting from `sem_activated = 0` and no unit posted, after the `n ≥ 1` mappers
have each run the guarded section once, in any order, exactly `num_reducer_threads` units
have been posted and `sem_activated` is 1; the first execution alone does that, and each
later execution (after any non-empty prefix of the order) leaves the whole state as it is. -/
theorem gate_posts_exactly_once (n R : Nat) (hn : 1 ≤ n) (order : List Nat)
    (horder : order.Perm (List.range n)) (u : MapperUtils)
    (hflag : u.sem_activated = 0) (hsem : u.semaphore = 0)
    (hR : u.num_reducer_threads = R) :
    (GatePhase order u).semaphore = R ∧ (GatePhase order u).sem_activated = 1 ∧
    (GatePhase (order.take 1) u).semaphore = R ∧
    ∀ k, 1 ≤ k →
      GateSection (GatePhase (order.take k) u) = GatePhase (order.take k) u := by
  have hlen : order.length = n := by simpa using horder.length_eq
  obtain ⟨t, rest, rfl⟩ : ∃ t rest, order = t :: rest := by
    cases order with
    | nil => simp at hlen; omega
    | cons t rest => exact ⟨t, rest, rfl⟩
  refine ⟨?_, ?_, ?_, ?_⟩
  · rw [GatePhase_fired t rest u hflag]; simp [hsem, hR]
  · rw [GatePhase_fired t rest u hflag]
  · rw [List.take_succ_cons, GatePhase_fired t _ u hflag]; simp [hsem, hR]
  · intro k hk
    obtain ⟨k', rfl⟩ : ∃ k', k = k' + 1 := ⟨k - 1, by omega⟩
    rw [List.take_succ_cons, GatePhase_fired t _ u hflag]
    exact GateSection_of_activated _ rfl

/-- Witness of C6: four mappers, three reducers, the section run in the order 2, 0, 3, 1. -/
theorem gate_posts_exactly_once_witness :
    (GatePhase [2, 0, 3, 1] (MapperUtils.init 4 3)).semaphore = 3 ∧
    (GatePhase [2, 0, 3, 1] (MapperUtils.init 4 3)).sem_activated = 1 ∧
    (GatePhase ([2, 0, 3, 1].take 1) (MapperUtils.init 4 3)).semaphore = 3 ∧
    ∀ k, 1 ≤ k →
      GateSection (GatePhase ([2, 0, 3, 1].take k) (MapperUtils.init 4 3)) =
        GatePhase ([2, 0, 3, 1].take k) (MapperUtils.init 4 3) :=
  gate_posts_exactly_once 4 3 (by decide) [2, 0, 3, 1] (by decide) (MapperUtils.init 4 3)
    rfl rfl rfl

/-- C8, as the code has it. For a manifest of fewer than `2 ^ 32` names, the ID the
registry holds for the name at position `i` (counted from 0) is `j + 1`, where `j ≥ i` is
the last position at which that name stands; so it is positive, and it is `i + 1`
whenever the name does not stand again further down. -/
theorem registry_id_is_last_position (names : List Str) (hlen : names.length < 2 ^ 32)
    (i : Nat) (f : Str) (hf : names[i]? = some f) :
    (∃ j, i ≤ j ∧ names[j]? = some f ∧ (∀ k, j < k → names[k]? ≠ some f) ∧
      UMap.find f (ReadFilenamesLoop names 0 ([], [])).2 = some (j + 1)) ∧
    ((∀ k, i < k → names[k]? ≠ some f) →
      UMap.find f (ReadFilenamesLoop names 0 ([], [])).2 = some (i + 1)) := by
  have hmod : ∀ j, names[j]? = some f → (0 + j + 1) % 2 ^ 32 = j + 1 := by
    intro j hj
    have : j < names.length := (List.getElem?_eq_some_iff.1 hj).1
    rw [Nat.zero_add]
    apply Nat.mod_eq_of_lt
    omega
  constructor
  · obtain ⟨j, hj1, hj2, hj3⟩ := exists_last_position names f names.length i (by omega) hf
    refine ⟨j, hj1, hj2, hj3, ?_⟩
    rw [ReadFilenamesLoop_find_last names 0 [] [] f j hj2 hj3, hmod j hj2]
  · intro hlast
    rw [ReadFilenamesLoop_find_last names 0 [] [] f i hf hlast, hmod i hf]

/-- Witness of C8 (amended): the manifest `x, y, x`, position 0. -/
theorem registry_id_is_last_position_witness :
    (∃ j, 0 ≤ j ∧ [bytes "x", bytes "y", bytes "x"][j]? = some (bytes "x") ∧
      (∀ k, j < k → [bytes "x", bytes "y", bytes "x"][k]? ≠ some (bytes "x")) ∧
      UMap.find (bytes "x")
        (ReadFilenamesLoop [bytes "x", bytes "y", bytes "x"] 0 ([], [])).2 = some (j + 1)) ∧
    ((∀ k, 0 < k → [bytes "x", bytes "y", bytes "x"][k]? ≠ some (bytes "x")) →
      UMap.find (bytes "x")
        (ReadFilenamesLoop [bytes "x", bytes "y", bytes "x"] 0 ([], [])).2 = some (0 + 1)) :=
  registry_id_is_last_position [bytes "x", bytes "y", bytes "x"] (by decide) 0 (bytes "x")
    (by decide)

/-- C8 as stated fails: in the manifest `x, x` the name at position 1 (the first line)
gets the ID 2, because the second `(*file_id)[curr_filename] = i + 1` overwrites the first. -/
theorem registry_id_not_position :
    ¬ (∀ (names : List Str) (i : Nat) (f : Str), names[i]? = some f →
        UMap.valueAt f 0 (ReadFilenamesLoop names 0 ([], [])).2 = i + 1) := by
  intro h
  have := h [bytes "x", bytes "x"] 0 (bytes "x") (by decide)
  revert this
  decide

section OrderLemmas

theorem strLt_irrefl (a : Str) : strLt a a = false := by
  induction a with
  | nil => rfl
  | cons x xs ih => simp [strLt, ih]

theorem strLt_trans (a b c : Str) (h1 : strLt a b = true) (h2 : strLt b c = true) :
    strLt a c = true := by
  induction a generalizing b c with
  | nil =>
    cases b with
    | nil => simp [strLt] at h1
    | cons y ys =>
      cases c with
      | nil => simp [strLt] at h2
      | cons z zs => rfl
  | cons x xs ih =>
    cases b with
    | nil => simp [strLt] at h1
    | cons y ys =>
      cases c with
      | nil => simp [strLt] at h2
      | cons z zs =>
        simp only [strLt] at h1 h2 ⊢
        by_cases hxy : x < y
        · by_cases hyz : y < z
          · have : x < z := by omega
            simp [this]
          · by_cases hzy : z < y
            · simp [hyz, hzy] at h2
            · have : x < z := by omega
              simp [this]
        · by_cases hyx : y < x
          · simp [hxy, hyx] at h1
          · simp only [hxy, hyx, if_false] at h1
            have hxy' : x = y := by omega
            subst hxy'
            by_cases hyz : x < z
            · simp [hyz]
            · by_cases hzy : z < x
              · simp [hyz, hzy] at h2
              · simp only [hyz, hzy, if_false] at h2 ⊢
                exact ih ys zs h1 h2

theorem strLt_total (a b : Str) (h : a ≠ b) : strLt a b = true ∨ strLt b a = true := by
  induction a generalizing b with
  | nil =>
    cases b with
    | nil => exact absurd rfl h
    | cons y ys => left; rfl
  | cons x xs ih =>
    cases b with
    | nil => right; rfl
    | cons y ys =>
      simp only [strLt]
      by_cases hxy : x < y
      · simp [hxy]
      · by_cases hyx : y < x
        · simp [hyx]
        · have hxy' : x = y := by omega
          subst hxy'
          simp only [hxy, if_false]
          exact ih ys (fun h' => h (by rw [h']))

theorem compare_iff (a b : Str × DocSet) :
    compare a b = true ↔
      b.2.length < a.2.length ∨ (a.2.length = b.2.length ∧ strLt a.1 b.1 = true) := by
  unfold compare
  by_cases hab : a.2.length = b.2.length
  · simp only [hab, ne_eq, not_true_eq_false, if_false, lt_self_iff_false, false_or, true_and]
  · simp only [hab, ne_eq, not_false_eq_true, if_true, decide_eq_true_eq, false_and, or_false]

theorem compare_irrefl (a : Str × DocSet) : compare a a = false := by
  simp [compare, strLt_irrefl]

theorem compare_trans (a b c : Str × DocSet) (h1 : compare a b = true)
    (h2 : compare b c = true) : compare a c = true := by
  rw [compare_iff] at *
  rcases h1 with h1 | ⟨h1, h1'⟩ <;> rcases h2 with h2 | ⟨h2, h2'⟩
  · left; omega
  · left; omega
  · left; omega
  · right; exact ⟨by omega, strLt_trans _ _ _ h1' h2'⟩

theorem compare_asymm (a b : Str × DocSet) (h1 : compare a b = true) :
    compare b a = false := by
  cases h : compare b a with
  | false => rfl
  | true =>
    have := compare_trans a b a h1 h
    rw [compare_irrefl] at this
    exact absurd this (by decide)

theorem compare_total (a b : Str × DocSet) (h : a.1 ≠ b.1) :
    compare a b = true ∨ compare b a = true := by
  rw [compare_iff, compare_iff]
  by_cases hab : a.2.length = b.2.length
  · rcases strLt_total _ _ h with h' | h'
    · left; right; exact ⟨hab, h'⟩
    · right; right; exact ⟨hab.symm, h'⟩
  · rcases Nat.lt_or_gt_of_ne hab with h' | h'
    · right; left; exact h'
    · left; left; exact h'

theorem compare_size (a b : Str × DocSet) (h : compare a b = true) :
    b.2.length ≤ a.2.length ∧ (a.2.length = b.2.length → strLt a.1 b.1 = true) := by
  rw [compare_iff] at h
  rcases h with h | ⟨h, h'⟩
  · exact ⟨by omega, fun h' => by omega⟩
  · exact ⟨by omega, fun _ => h'⟩

theorem compare_of_size (a b : Str × DocSet) (h1 : b.2.length ≤ a.2.length)
    (h2 : a.2.length = b.2.length → strLt a.1 b.1 = true) : compare a b = true := by
  rw [compare_iff]
  by_cases hab : a.2.length = b.2.length
  · right; exact ⟨hab, h2 hab⟩
  · left; omega

theorem sortInsert_perm (x : Str × DocSet) (l : List (Str × DocSet)) :
    (sortInsert x l).Perm (x :: l) := by
  induction l with
  | nil => exact List.Perm.refl _
  | cons y ys ih =>
    unfold sortInsert
    split
    · exact List.Perm.refl _
    · exact (List.Perm.cons y ih).trans (List.Perm.swap x y ys)

theorem stdSort_perm (l : List (Str × DocSet)) : (stdSort l).Perm l := by
  induction l with
  | nil => exact List.Perm.refl _
  | cons x xs ih =>
    exact (sortInsert_perm x (stdSort xs)).trans (List.Perm.cons x ih)

theorem sortInsert_sorted (x : Str × DocSet) (l : List (Str × DocSet))
    (hl : l.Pairwise (fun a b => compare a b = true)) (hx : ∀ y ∈ l, x.1 ≠ y.1) :
    (sortInsert x l).Pairwise (fun a b => compare a b = true) := by
  induction l with
  | nil => simp [sortInsert]
  | cons y ys ih =>
    rw [List.pairwise_cons] at hl
    unfold sortInsert
    split
    · rename_i hxy
      refine List.pairwise_cons.2 ⟨?_, List.pairwise_cons.2 hl⟩
      intro z hz
      rcases List.mem_cons.1 hz with hz | hz
      · rw [hz]; exact hxy
      · exact compare_trans x y z hxy (hl.1 z hz)
    · rename_i hxy
      refine List.pairwise_cons.2 ⟨?_, ih hl.2 (fun z hz => hx z (List.mem_cons_of_mem _ hz))⟩
      intro z hz
      rcases List.mem_cons.1 ((sortInsert_perm x ys).mem_iff.1 hz) with hz | hz
      · rw [hz]
        rcases compare_total x y (hx y (List.mem_cons_self _ _)) with h | h
        · exact absurd h hxy
        · exact h
      · exact hl.1 z hz

theorem stdSort_sorted (l : List (Str × DocSet)) (hk : UMap.KeysOK l) :
    (stdSort l).Pairwise (fun a b => compare a b = true) := by
  induction l with
  | nil => simp [stdSort]
  | cons x xs ih =>
    unfold UMap.KeysOK at hk
    simp only [List.map_cons, List.nodup_cons] at hk
    apply sortInsert_sorted x (stdSort xs) (ih hk.2)
    intro y hy heq
    apply hk.1
    rw [heq]
    exact List.mem_map.2 ⟨y, (stdSort_perm xs).mem_iff.1 hy, rfl⟩

theorem sort_unique (l l' : List (Str × DocSet)) (hp : l'.Perm l)
    (h1 : l.Pairwise (fun a b => compare a b = true))
    (h2 : l'.Pairwise (fun a b => compare a b = true)) : l' = l := by
  haveI : IsAntisymm (Str × DocSet) (fun a b => compare a b = true) :=
    ⟨fun a b hab hba => by rw [compare_asymm a b hab] at hba; exact absurd hba (by decide)⟩
  exact List.eq_of_perm_of_sorted hp h2 h1

theorem pairwise_of_chain_compare (l : List (Str × DocSet))
    (h : l.Chain' (fun a b => compare a b = true)) :
    l.Pairwise (fun a b => compare a b = true) := by
  haveI : IsTrans (Str × DocSet) (fun a b => compare a b = true) :=
    ⟨fun a b c => compare_trans a b c⟩
  exact List.chain'_iff_pairwise.1 h

end OrderLemmas

/-- C3. For a bucket (unique words), sorting its entries with `compare` gives a permutation of
the entries in which set sizes never increase and two adjacent entries with sets of the same
size have strictly increasing words; `compare` is irreflexive, transitive and decides any
two entries with distinct words; and every arrangement of the entries with that ordering
property is the one the sort returns. -/
theorem sort_is_the_ordered_permutation (bucket : Bucket) (hk : UMap.KeysOK bucket) :
    (stdSort bucket).Perm bucket ∧
    (stdSort bucket).Pairwise (fun a b => b.2.length ≤ a.2.length) ∧
    (stdSort bucket).Chain' (fun a b => a.2.length = b.2.length → strLt a.1 b.1 = true) ∧
    (∀ a, compare a a = false) ∧
    (∀ a b c, compare a b = true → compare b c = true → compare a c = true) ∧
    (∀ a b : Str × DocSet, a.1 ≠ b.1 → compare a b = true ∨ compare b a = true) ∧
    (∀ l : List (Str × DocSet), l.Perm bucket →
      l.Chain' (fun a b => b.2.length ≤ a.2.length ∧
        (a.2.length = b.2.length → strLt a.1 b.1 = true)) →
      l = stdSort bucket) := by
  have hs := stdSort_sorted bucket hk
  refine ⟨stdSort_perm bucket, ?_, ?_, compare_irrefl, compare_trans, compare_total, ?_⟩
  · exact hs.imp (fun h => (compare_size _ _ h).1)
  · exact (hs.imp (fun h => (compare_size _ _ h).2)).chain'
  · intro l hp hc
    apply sort_unique (stdSort bucket) l (hp.trans (stdSort_perm bucket).symm) hs
    apply pairwise_of_chain_compare
    exact hc.imp (fun a b h => compare_of_size a b h.1 h.2)

/-- Witness of C3: a bucket of three words, two of them in two documents. -/
theorem sort_is_the_ordered_permutation_witness :
    (stdSort [(bytes "dog", [1]), (bytes "dot", [1, 2]), (bytes "dig", [2, 3])]).Perm
      [(bytes "dog", [1]), (bytes "dot", [1, 2]), (bytes "dig", [2, 3])] ∧
    stdSort [(bytes "dog", [1]), (bytes "dot", [1, 2]), (bytes "dig", [2, 3])] =
      [(bytes "dig", [2, 3]), (bytes "dot", [1, 2]), (bytes "dog", [1])] :=
  ⟨(sort_is_the_ordered_permutation
      [(bytes "dog", [1]), (bytes "dot", [1, 2]), (bytes "dig", [2, 3])] (by decide)).1,
    by decide⟩

section WriteLemmas

theorem decimalDigits_append (fuel n : Nat) (acc : Str) :
    decimalDigits fuel n acc = decimalDigits fuel n [] ++ acc := by
  induction fuel generalizing n acc with
  | zero => rfl
  | succ fuel ih =>
    unfold decimalDigits
    split
    · rfl
    · rw [ih (n / 10) ((48 + n % 10) :: acc), ih (n / 10) [48 + n % 10]]
      simp

theorem decimalDigits_step (fuel n : Nat) (hn : ¬ n < 10) :
    decimalDigits (fuel + 1) n [] = decimalDigits fuel (n / 10) [] ++ [48 + n % 10] := by
  rw [decimalDigits, if_neg hn, decimalDigits_append]

/-- With enough fuel the digits are those of the number: digits only, the value of the
number, and no zero in front of a positive number. -/
theorem decimalDigits_spec (fuel : Nat) :
    ∀ n, n < fuel →
      decimalDigits fuel n [] ≠ [] ∧
      (∀ c ∈ decimalDigits fuel n [], 48 ≤ c ∧ c ≤ 57) ∧
      (decimalDigits fuel n []).foldl (fun acc c => 10 * acc + (c - 48)) 0 = n ∧
      (1 ≤ n → (decimalDigits fuel n []).head? ≠ some 48) ∧
      (n = 0 → decimalDigits fuel n [] = [48]) := by
  induction fuel with
  | zero => intro n hn; omega
  | succ fuel ih =>
    intro n hn
    by_cases h10 : n < 10
    · have hd : decimalDigits (fuel + 1) n [] = [48 + n] := by
        rw [decimalDigits, if_pos h10]
      rw [hd]
      refine ⟨by simp, ?_, ?_, ?_, ?_⟩
      · intro c hc
        simp only [List.mem_singleton] at hc
        omega
      · simp
      · intro h1
        simp only [List.head?_cons, ne_eq, Option.some.injEq]
        omega
      · intro h0
        rw [h0]
    · rw [decimalDigits_step fuel n h10]
      obtain ⟨h1, h2, h3, h4, _⟩ := ih (n / 10) (by omega)
      refine ⟨by simp, ?_, ?_, ?_, ?_⟩
      · intro c hc
        rcases List.mem_append.1 hc with hc | hc
        · exact h2 c hc
        · simp only [List.mem_singleton] at hc
          omega
      · rw [List.foldl_append, h3]
        simp only [List.foldl_cons, List.foldl_nil]
        omega
      · intro _
        rw [List.head?_append_of_ne_nil _ h1]
        exact h4 (by omega)
      · intro h0
        omega

/-- The characters written for an ID are its decimal rendering. -/
theorem decimal_isDecimalOf (n : Nat) : IsDecimalOf (decimal n) n := by
  obtain ⟨h1, h2, h3, h4, h5⟩ := decimalDigits_spec (n + 1) n (by omega)
  refine ⟨h1, h2, ?_, h3⟩
  intro hh
  by_cases h0 : n = 0
  · exact h5 h0
  · exact absurd hh (h4 (by omega))

theorem digits_foldl_ge (s : Str) (a : Nat) :
    a ≤ s.foldl (fun acc c => 10 * acc + (c - 48)) a := by
  induction s generalizing a with
  | nil => exact le_refl a
  | cons c rest ih =>
    simp only [List.foldl_cons]
    exact le_trans (by omega) (ih (10 * a + (c - 48)))

/-- The digits before the last one of a decimal rendering of two digits or more are a
decimal rendering of a positive number. -/
theorem isDecimalOf_init (ds : Str) (d n : Nat) (h : IsDecimalOf (ds ++ [d]) n)
    (hne : ds ≠ []) :
    IsDecimalOf ds (ds.foldl (fun acc c => 10 * acc + (c - 48)) 0) ∧
      1 ≤ ds.foldl (fun acc c => 10 * acc + (c - 48)) 0 := by
  obtain ⟨_, h2, h3, _⟩ := h
  have hhead : ds.head? ≠ some 48 := by
    intro hh
    have := h3 (by rw [List.head?_append_of_ne_nil _ hne]; exact hh)
    have hlen := congrArg List.length this
    cases ds with
    | nil => exact hne rfl
    | cons x xs => simp at hlen
  refine ⟨⟨hne, fun c hc => h2 c (List.mem_append_left _ hc), fun hh => absurd hh hhead, rfl⟩, ?_⟩
  cases ds with
  | nil => exact absurd rfl hne
  | cons x xs =>
    have hx := h2 x (by simp)
    have hx48 : x ≠ 48 := by
      intro h48
      apply hhead
      simp [h48]
    simp only [List.foldl_cons]
    exact le_trans (by omega) (digits_foldl_ge xs (10 * 0 + (x - 48)))

/-- A number has one decimal rendering. -/
theorem isDecimalOf_unique (n : Nat) :
    ∀ s t : Str, IsDecimalOf s n → IsDecimalOf t n → s = t := by
  induction n using Nat.strong_induction_on with
  | _ n ih =>
    intro s t hs ht
    rcases List.eq_nil_or_concat s with h | ⟨ds, d, h⟩
    · exact absurd h hs.1
    rcases List.eq_nil_or_concat t with h' | ⟨dt, e, h'⟩
    · exact absurd h' ht.1
    rw [List.concat_eq_append] at h h'
    subst h
    subst h'
    have hd := hs.2.1 d (by simp)
    have he := ht.2.1 e (by simp)
    have hvs := hs.2.2.2
    have hvt := ht.2.2.2
    rw [List.foldl_concat] at hvs hvt
    by_cases hds : ds = []
    · by_cases hdt : dt = []
      · subst hds
        subst hdt
        simp only [List.foldl_nil] at hvs hvt
        have : d = e := by omega
        rw [this]
      · obtain ⟨_, hpos⟩ := isDecimalOf_init dt e n ht hdt
        subst hds
        simp only [List.foldl_nil] at hvs
        omega
    · obtain ⟨hsd, hspos⟩ := isDecimalOf_init ds d n hs hds
      by_cases hdt : dt = []
      · subst hdt
        simp only [List.foldl_nil] at hvt
        omega
      · obtain ⟨htd, _⟩ := isDecimalOf_init dt e n ht hdt
        have hm : ds.foldl (fun acc c => 10 * acc + (c - 48)) 0 =
            dt.foldl (fun acc c => 10 * acc + (c - 48)) 0 := by omega
        have hde : d = e := by omega
        have hlt : ds.foldl (fun acc c => 10 * acc + (c - 48)) 0 < n := by omega
        rw [← hm] at htd
        rw [ih _ hlt ds dt hsd htd, hde]

/-- An entry has one record. -/
theorem isRecordOf_unique (e : Str × DocSet) (l1 l2 : Str) (h1 : IsRecordOf l1 e)
    (h2 : IsRecordOf l2 e) : l1 = l2 := by
  obtain ⟨ids1, hf1, rfl⟩ := h1
  obtain ⟨ids2, hf2, rfl⟩ := h2
  have : ids1 = ids2 :=
    List.left_unique_forall₂' (fun a b c hac hbc => isDecimalOf_unique c a b hac hbc) hf1 hf2
  rw [this]

theorem writeIds_spec (occurrences : DocSet) :
    ∃ ids : List Str, List.Forall₂ IsDecimalOf ids occurrences ∧
      writeIds occurrences = List.intercalate (bytes " ") ids := by
  refine ⟨occurrences.map decimal, ?_, ?_⟩
  · induction occurrences with
    | nil => exact List.Forall₂.nil
    | cons x rest ih => exact List.Forall₂.cons (decimal_isDecimalOf x) ih
  · induction occurrences with
    | nil => rfl
    | cons x rest ih =>
      cases rest with
      | nil => simp [writeIds, List.intercalate, List.intersperse]
      | cons y rest =>
        simp only [writeIds, ih]
        simp [List.intercalate, List.intersperse, bytes]

theorem writeEntries_spec (entries : List (Str × DocSet)) :
    ∃ lines : List Str, List.Forall₂ IsRecordOf lines entries ∧
      writeEntries entries = lines.flatten := by
  induction entries with
  | nil => exact ⟨[], List.Forall₂.nil, rfl⟩
  | cons e rest ih =>
    obtain ⟨word, occurrences⟩ := e
    obtain ⟨lines, hl, heq⟩ := ih
    obtain ⟨ids, hids, hw⟩ := writeIds_spec occurrences
    refine ⟨(word ++ bytes ":[" ++ List.intercalate (bytes " ") ids ++ bytes "]\n") :: lines,
      List.Forall₂.cons ⟨ids, hids, rfl⟩ hl, ?_⟩
    simp only [writeEntries, heq, hw, List.flatten_cons]
    simp [bytes]

end WriteLemmas

/-- C4. The text written for a bucket is the concatenation, over the entries sorted with
`compare`, of one line per entry, each of the form `word ++ ":[" ++ ids ++ "]\n"` where
`ids` is the decimal renderings of the IDs of the entry, in strictly ascending order, with
one space between two of them and none before the first or after the last; these lines are
the only ones of that form, so the text is determined; and a bucket without entries gives
the empty text. -/
theorem written_text_has_record_format (bucket : Bucket) (hb : BucketOK bucket) :
    (∃ lines : List Str, List.Forall₂ IsRecordOf lines (stdSort bucket) ∧
      writeBucket bucket = lines.flatten) ∧
    (∀ lines : List Str, List.Forall₂ IsRecordOf lines (stdSort bucket) →
      writeBucket bucket = lines.flatten) ∧
    (∀ n, IsDecimalOf (decimal n) n) ∧
    (∀ e ∈ stdSort bucket, e.2.Pairwise (· < ·)) ∧
    (bucket = [] → writeBucket bucket = []) := by
  have hex : ∃ lines : List Str, List.Forall₂ IsRecordOf lines (stdSort bucket) ∧
      writeBucket bucket = lines.flatten := by
    unfold writeBucket
    split
    · rename_i h; subst h; exact ⟨[], List.Forall₂.nil, rfl⟩
    · exact writeEntries_spec _
  refine ⟨hex, ?_, decimal_isDecimalOf, ?_, ?_⟩
  · intro lines hl
    obtain ⟨lines0, hl0, heq⟩ := hex
    rw [heq, List.left_unique_forall₂'
      (fun a b c hac hbc => isRecordOf_unique c a b hac hbc) hl hl0]
  · intro e he
    exact hb.2 e ((stdSort_perm bucket).mem_iff.1 he)
  · intro h; subst h; rfl

/-- Witness of C4: the bucket of the letter `c` with `cow` in document 12 and `cat` in
documents 1 and 2; the text written is `cat:[1 2]`, then `cow:[12]`. -/
theorem written_text_has_record_format_witness :
    writeBucket [(bytes "cow", [12]), (bytes "cat", [1, 2])] =
      bytes "cat:[1 2]\ncow:[12]\n" ∧
    ∃ lines : List Str,
      List.Forall₂ IsRecordOf lines (stdSort [(bytes "cow", [12]), (bytes "cat", [1, 2])]) ∧
      writeBucket [(bytes "cow", [12]), (bytes "cat", [1, 2])] = lines.flatten :=
  ⟨by decide,
    (written_text_has_record_format [(bytes "cow", [12]), (bytes "cat", [1, 2])]
      (by decide)).1⟩

section MergeLemmas

theorem UMap.valueAt_prop {K V : Type} [DecidableEq K] (P : V → Prop) (k : K) (d : V)
    (m : UMap K V) (hd : P d) (hm : ∀ e ∈ m, P e.2) : P (UMap.valueAt k d m) := by
  unfold UMap.valueAt
  cases h : UMap.find k m with
  | none => exact hd
  | some v => exact hm (k, v) (UMap.mem_of_find k v m h)

theorem UMap.exists_entry_iff {K V : Type} [DecidableEq K] (m : UMap K V)
    (hm : UMap.KeysOK m) (k : K) (P : V → Prop) :
    (∃ e ∈ m, e.1 = k ∧ P e.2) ↔ ∃ v, UMap.find k m = some v ∧ P v := by
  constructor
  · rintro ⟨⟨k', v⟩, he, rfl, hp⟩
    exact ⟨v, UMap.find_of_mem k' v m hm he, hp⟩
  · rintro ⟨v, hv, hp⟩
    exact ⟨(k, v), UMap.mem_of_find k v m hv, rfl, hp⟩

theorem mem_mergeEntry (fl : Bucket) (e : Str × DocSet) (w : Str) (d : Nat) :
    d ∈ UMap.valueAt w [] (mergeEntry fl e) ↔
      d ∈ UMap.valueAt w [] fl ∨ (e.1 = w ∧ d ∈ e.2) := by
  unfold mergeEntry
  cases h : UMap.find e.1 fl with
  | some s =>
    simp only [UMap.valueAt_update]
    by_cases hw : e.1 = w
    · simp only [hw, if_true, mem_setInsertRange, true_and]
      tauto
    · simp [hw]
  | none =>
    simp only [UMap.valueAt_update]
    by_cases hw : e.1 = w
    · have : UMap.valueAt w [] fl = [] := by simp [UMap.valueAt, ← hw, h]
      simp [hw, this]
    · simp [hw]

theorem isSome_mergeEntry (fl : Bucket) (e : Str × DocSet) (w : Str) :
    (UMap.find w (mergeEntry fl e)).isSome ↔ (UMap.find w fl).isSome ∨ e.1 = w := by
  unfold mergeEntry
  cases h : UMap.find e.1 fl with
  | some s =>
    simp only [UMap.find_update]
    by_cases hw : e.1 = w <;> simp [hw]
  | none =>
    simp only [UMap.find_update]
    by_cases hw : e.1 = w <;> simp [hw]

theorem mergeEntry_ok (fl : Bucket) (e : Str × DocSet) (hfl : BucketOK fl)
    (he : DocSetOK e.2) : BucketOK (mergeEntry fl e) := by
  have hv : DocSetOK (UMap.valueAt e.1 [] fl) :=
    UMap.valueAt_prop DocSetOK e.1 [] fl List.Pairwise.nil hfl.2
  unfold mergeEntry
  cases h : UMap.find e.1 fl with
  | some s =>
    refine ⟨UMap.keysOK_update _ _ _ _ hfl.1, ?_⟩
    intro x hx
    rcases UMap.mem_update _ _ _ _ _ hx with hx | hx
    · exact hfl.2 x hx
    · rw [hx]; exact setInsertRange_ok _ _ hv
  | none =>
    refine ⟨UMap.keysOK_update _ _ _ _ hfl.1, ?_⟩
    intro x hx
    rcases UMap.mem_update _ _ _ _ _ hx with hx | hx
    · exact hfl.2 x hx
    · rw [hx]; exact he

theorem mem_mergePartial (pl fl : Bucket) (w : Str) (d : Nat) :
    d ∈ UMap.valueAt w [] (mergePartial fl pl) ↔
      d ∈ UMap.valueAt w [] fl ∨ ∃ e ∈ pl, e.1 = w ∧ d ∈ e.2 := by
  unfold mergePartial
  induction pl generalizing fl with
  | nil => simp
  | cons e rest ih =>
    simp only [List.foldl_cons, ih, mem_mergeEntry, List.mem_cons, exists_eq_or_imp]
    tauto

theorem isSome_mergePartial (pl fl : Bucket) (w : Str) :
    (UMap.find w (mergePartial fl pl)).isSome ↔
      (UMap.find w fl).isSome ∨ ∃ e ∈ pl, e.1 = w := by
  unfold mergePartial
  induction pl generalizing fl with
  | nil => simp
  | cons e rest ih =>
    simp only [List.foldl_cons, ih, isSome_mergeEntry, List.mem_cons, exists_eq_or_imp]
    tauto

theorem mergePartial_ok (pl fl : Bucket) (hfl : BucketOK fl) (hpl : ∀ e ∈ pl, DocSetOK e.2) :
    BucketOK (mergePartial fl pl) := by
  unfold mergePartial
  induction pl generalizing fl with
  | nil => exact hfl
  | cons e rest ih =>
    simp only [List.foldl_cons]
    exact ih _ (mergeEntry_ok fl e hfl (hpl e (List.mem_cons_self _ _)))
      (fun x hx => hpl x (List.mem_cons_of_mem _ hx))

/-- The bucket the merge loop builds depends on the shards only through their word tables
for the letter. -/
theorem mergeLoop_snd (c : Nat) (shards : List Shard) (fl : Bucket) :
    (mergeLoop c shards fl).2 = (shards.map (UMap.valueAt c [])).foldl mergePartial fl := by
  induction shards generalizing fl with
  | nil => rfl
  | cons sh rest ih => simp only [mergeLoop, ih, List.map_cons, List.foldl_cons]

theorem mergeLoop_fst (c : Nat) (shards : List Shard) (fl : Bucket) :
    (mergeLoop c shards fl).1 = shards.map (UMap.update c [] id) := by
  induction shards generalizing fl with
  | nil => rfl
  | cons sh rest ih => simp only [mergeLoop, ih, List.map_cons]

theorem valueAt_read (c c' : Nat) (sh : Shard) :
    UMap.valueAt c' [] (UMap.update c [] id sh) = UMap.valueAt c' [] sh := by
  rw [UMap.valueAt_update]
  split
  · rename_i h; subst h; rfl
  · rfl

theorem mem_mergeLoop (c : Nat) (shards : List Shard) (fl : Bucket) (w : Str) (d : Nat) :
    d ∈ UMap.valueAt w [] (mergeLoop c shards fl).2 ↔
      d ∈ UMap.valueAt w [] fl ∨
        ∃ sh ∈ shards, ∃ e ∈ UMap.valueAt c [] sh, e.1 = w ∧ d ∈ e.2 := by
  induction shards generalizing fl with
  | nil => simp [mergeLoop]
  | cons sh rest ih =>
    simp only [mergeLoop, ih, mem_mergePartial, List.mem_cons, exists_eq_or_imp]
    exact or_assoc

theorem isSome_mergeLoop (c : Nat) (shards : List Shard) (fl : Bucket) (w : Str) :
    (UMap.find w (mergeLoop c shards fl).2).isSome ↔
      (UMap.find w fl).isSome ∨ ∃ sh ∈ shards, ∃ e ∈ UMap.valueAt c [] sh, e.1 = w := by
  induction shards generalizing fl with
  | nil => simp [mergeLoop]
  | cons sh rest ih =>
    simp only [mergeLoop, ih, isSome_mergePartial, List.mem_cons, exists_eq_or_imp]
    exact or_assoc

theorem ShardOK.valueAt {sh : Shard} (h : ShardOK sh) (c : Nat) :
    BucketOK (UMap.valueAt c [] sh) :=
  UMap.valueAt_prop BucketOK c [] sh
    ⟨List.nodup_nil, fun _ he => absurd he (List.not_mem_nil _)⟩ h.2

theorem mergeLoop_ok (c : Nat) (shards : List Shard) (fl : Bucket) (hfl : BucketOK fl)
    (hs : ∀ sh ∈ shards, ShardOK sh) : BucketOK (mergeLoop c shards fl).2 := by
  induction shards generalizing fl with
  | nil => exact hfl
  | cons sh rest ih =>
    simp only [mergeLoop]
    apply ih
    · exact mergePartial_ok _ _ hfl ((hs sh (List.mem_cons_self _ _)).valueAt c).2
    · exact fun x hx => hs x (List.mem_cons_of_mem _ hx)

/-- Two well-formed buckets with the same words and, for each word, the same IDs answer
every `find` alike. -/
theorem find_eq_of_same_content (b1 b2 : Bucket) (h1 : BucketOK b1) (h2 : BucketOK b2)
    (hk : ∀ w, (UMap.find w b1).isSome ↔ (UMap.find w b2).isSome)
    (hd : ∀ w d, d ∈ UMap.valueAt w [] b1 ↔ d ∈ UMap.valueAt w [] b2) (w : Str) :
    UMap.find w b1 = UMap.find w b2 := by
  have hk' := hk w
  have hd' := hd w
  cases e1 : UMap.find w b1 with
  | none =>
    cases e2 : UMap.find w b2 with
    | none => rfl
    | some s2 => simp [e1, e2] at hk'
  | some s1 =>
    cases e2 : UMap.find w b2 with
    | none => simp [e1, e2] at hk'
    | some s2 =>
      congr 1
      apply docSet_ext (h1.2 _ (UMap.mem_of_find w s1 b1 e1))
        (h2.2 _ (UMap.mem_of_find w s2 b2 e2))
      intro x
      simpa [UMap.valueAt, e1, e2] using hd' x

end MergeLemmas

section UnionLemmas

theorem entries_docs_iff (b : Bucket) (hb : UMap.KeysOK b) (w : Str) (d : Nat) :
    (∃ e ∈ b, e.1 = w ∧ d ∈ e.2) ↔ d ∈ UMap.valueAt w [] b := by
  rw [UMap.exists_entry_iff b hb w (fun s => d ∈ s)]
  unfold UMap.valueAt
  cases h : UMap.find w b with
  | none => simp
  | some s => simp

theorem entries_key_iff (b : Bucket) (w : Str) :
    (∃ e ∈ b, e.1 = w) ↔ (UMap.find w b).isSome := by
  rw [UMap.find_isSome_iff, List.mem_map]

theorem mergeLoop_keeps_contents (c c' : Nat) (shards : List Shard) (fl : Bucket) :
    (mergeLoop c shards fl).1.map (UMap.valueAt c' []) = shards.map (UMap.valueAt c' []) := by
  rw [mergeLoop_fst, List.map_map]
  apply List.map_congr_left
  intro sh _
  exact valueAt_read c c' sh

theorem mergeLoop_snd_congr (c : Nat) (shards shards' : List Shard) (fl : Bucket)
    (h : shards.map (UMap.valueAt c []) = shards'.map (UMap.valueAt c [])) :
    (mergeLoop c shards fl).2 = (mergeLoop c shards' fl).2 := by
  rw [mergeLoop_snd, mergeLoop_snd, h]

/-- The IDs of a word in the merged bucket, for well-formed shards. -/
theorem mem_merged (c : Nat) (shards : List Shard) (hs : ∀ sh ∈ shards, ShardOK sh)
    (w : Str) (d : Nat) :
    d ∈ UMap.valueAt w [] (mergeLoop c shards []).2 ↔
      ∃ sh ∈ shards, d ∈ UMap.valueAt w [] (UMap.valueAt c [] sh) := by
  rw [mem_mergeLoop]
  have h0 : ¬ d ∈ UMap.valueAt w [] ([] : Bucket) := by simp [UMap.valueAt, UMap.find]
  constructor
  · rintro (h | ⟨sh, hsh, h⟩)
    · exact absurd h h0
    · exact ⟨sh, hsh, (entries_docs_iff _ ((hs sh hsh).valueAt c).1 w d).1 h⟩
  · rintro ⟨sh, hsh, h⟩
    exact Or.inr ⟨sh, hsh, (entries_docs_iff _ ((hs sh hsh).valueAt c).1 w d).2 h⟩

/-- The words of the merged bucket. -/
theorem isSome_merged (c : Nat) (shards : List Shard) (w : Str) :
    (UMap.find w (mergeLoop c shards []).2).isSome ↔
      ∃ sh ∈ shards, (UMap.find w (UMap.valueAt c [] sh)).isSome := by
  rw [isSome_mergeLoop]
  constructor
  · rintro (h | ⟨sh, hsh, h⟩)
    · simp [UMap.find] at h
    · exact ⟨sh, hsh, (entries_key_iff _ w).1 h⟩
  · rintro ⟨sh, hsh, h⟩
    exact Or.inr ⟨sh, hsh, (entries_key_iff _ w).2 h⟩

theorem bucketOK_nil : BucketOK [] :=
  ⟨List.nodup_nil, fun _ he => absurd he (List.not_mem_nil _)⟩

end UnionLemmas

/-- C2. For every letter and every list of (well-formed) shards, the bucket the merge loop
builds from the empty bucket is a well-formed bucket that holds exactly the words found in
some shard's table for the letter, each with exactly the IDs the shards hold for it;
merging the shards in another order gives the same bucket, and so does running the loop
once more into the merged bucket (two buckets being the same when every `find` gives the
same answer on both). -/
theorem merge_is_union_of_shards (L : Nat) (shards : List Shard)
    (hs : ∀ sh ∈ shards, ShardOK sh) :
    BucketOK (mergeLoop L shards []).2 ∧
    (∀ w, (UMap.find w (mergeLoop L shards []).2).isSome ↔
      ∃ sh ∈ shards, (UMap.find w (UMap.valueAt L [] sh)).isSome) ∧
    (∀ w d, d ∈ UMap.valueAt w [] (mergeLoop L shards []).2 ↔
      ∃ sh ∈ shards, d ∈ UMap.valueAt w [] (UMap.valueAt L [] sh)) ∧
    (∀ shards' : List Shard, shards'.Perm shards →
      ∀ w, UMap.find w (mergeLoop L shards' []).2 = UMap.find w (mergeLoop L shards []).2) ∧
    (∀ w, UMap.find w (mergeLoop L (mergeLoop L shards []).1 (mergeLoop L shards []).2).2 =
      UMap.find w (mergeLoop L shards []).2) := by
  have hok := mergeLoop_ok L shards [] bucketOK_nil hs
  refine ⟨hok, isSome_merged L shards, mem_merged L shards hs, ?_, ?_⟩
  · intro shards' hp w
    have hs' : ∀ sh ∈ shards', ShardOK sh := fun sh h => hs sh (hp.mem_iff.1 h)
    apply find_eq_of_same_content _ _ (mergeLoop_ok L shards' [] bucketOK_nil hs') hok
    · intro w
      rw [isSome_merged, isSome_merged]
      constructor
      · rintro ⟨sh, h1, h2⟩; exact ⟨sh, hp.mem_iff.1 h1, h2⟩
      · rintro ⟨sh, h1, h2⟩; exact ⟨sh, hp.mem_iff.2 h1, h2⟩
    · intro w d
      rw [mem_merged L shards' hs', mem_merged L shards hs]
      constructor
      · rintro ⟨sh, h1, h2⟩; exact ⟨sh, hp.mem_iff.1 h1, h2⟩
      · rintro ⟨sh, h1, h2⟩; exact ⟨sh, hp.mem_iff.2 h1, h2⟩
  · intro w
    rw [mergeLoop_snd_congr L (mergeLoop L shards []).1 shards _
      (mergeLoop_keeps_contents L L shards [])]
    apply find_eq_of_same_content _ _ (mergeLoop_ok L shards _ hok hs) hok
    · intro w
      rw [isSome_mergeLoop, isSome_merged]
      constructor
      · rintro (h | ⟨sh, hsh, h⟩)
        · exact h
        · exact ⟨sh, hsh, (entries_key_iff _ w).1 h⟩
      · intro h
        exact Or.inl h
    · intro w d
      rw [mem_mergeLoop]
      constructor
      · rintro (h | ⟨sh, hsh, h⟩)
        · exact h
        · exact (mem_merged L shards hs w d).2
            ⟨sh, hsh, (entries_docs_iff _ ((hs sh hsh).valueAt L).1 w d).1 h⟩
      · intro h
        exact Or.inl h

/-- Witness of C2: two shards, `cat` in documents 1 and 3 in the first, in documents 2
and 3 in the second, which also has `cow`; the merged bucket holds `cat` with 1, 2, 3. -/
theorem merge_is_union_of_shards_witness :
    UMap.find (bytes "cat")
        (mergeLoop 99
          [[(99, [(bytes "cat", [1, 3])])],
           [(100, [(bytes "dog", [2])]), (99, [(bytes "cow", [2]), (bytes "cat", [2, 3])])]]
          []).2 = some [1, 2, 3] ∧
    ∀ shards' : List Shard,
      shards'.Perm
        [[(99, [(bytes "cat", [1, 3])])],
         [(100, [(bytes "dog", [2])]), (99, [(bytes "cow", [2]), (bytes "cat", [2, 3])])]] →
      ∀ w, UMap.find w (mergeLoop 99 shards' []).2 =
        UMap.find w
          (mergeLoop 99
            [[(99, [(bytes "cat", [1, 3])])],
             [(100, [(bytes "dog", [2])]),
              (99, [(bytes "cow", [2]), (bytes "cat", [2, 3])])]]
            []).2 :=
  ⟨by decide,
   (merge_is_union_of_shards 99
      [[(99, [(bytes "cat", [1, 3])])],
       [(100, [(bytes "dog", [2])]), (99, [(bytes "cow", [2]), (bytes "cat", [2, 3])])]]
      (by decide)).2.2.2.1⟩

/-- C10, the code at a concrete state. One mapper has mapped one file holding `cat`, so
its shard holds only `cat` (letter `c`). After the merge loop for the letter `a` the
shard has one more entry, an empty word table for `a`, put there by `operator[]` in
`partial_lists[i][curr_char]`; so the shard is not what it was, while what it holds for
every letter is unchanged. -/
theorem reduce_merge_adds_empty_table :
    (MapPhase (fun _ => some (bytes "cat")) [0] (afterRead (MapperUtils.init 1 1)
      (ReadFilenamesLoop [bytes "file1"] 0 ([], [])))).partial_lists =
      [[(99, [(bytes "cat", [1])])]] ∧
    (mergeLoop 97 [[(99, [(bytes "cat", [1])])]] []).1 =
      [[(99, [(bytes "cat", [1])]), (97, [])]] ∧
    (mergeLoop 97 [[(99, [(bytes "cat", [1])])]] []).1 ≠ [[(99, [(bytes "cat", [1])])]] ∧
    ∀ c, (mergeLoop 97 [[(99, [(bytes "cat", [1])])]] []).1.map (UMap.valueAt c []) =
      [[(99, [(bytes "cat", [1])])]].map (UMap.valueAt c []) :=
  ⟨by decide, by decide, by decide, fun c => mergeLoop_keeps_contents 97 c _ []⟩

section MapLemmas

theorem UMap.valueAt_update_id {K V : Type} [DecidableEq K] (k k' : K) (d : V)
    (m : UMap K V) : UMap.valueAt k' d (UMap.update k d id m) = UMap.valueAt k' d m := by
  rw [UMap.valueAt_update]
  split
  · rename_i h; subst h; rfl
  · rfl

theorem mem_idInsert (file_id d : Nat) (ids : DocSet) :
    d ∈ (if file_id ∈ ids then ids else setInsert file_id ids) ↔ d ∈ ids ∨ d = file_id := by
  split
  · rename_i h
    constructor
    · exact Or.inl
    · rintro (h' | h')
      · exact h'
      · rw [h']; exact h
  · rw [mem_setInsert]
    tauto

theorem mem_MapToken (file_id : Nat) (sh : Shard) (tok : Str) (c : Nat) (w : Str) (d : Nat) :
    d ∈ UMap.valueAt w [] (UMap.valueAt c [] (MapToken file_id sh tok)) ↔
      d ∈ UMap.valueAt w [] (UMap.valueAt c [] sh) ∨
        ((normalize tok = w ∧ ∃ rest, w = c :: rest) ∧ d = file_id) := by
  unfold MapToken
  cases hn : normalize tok with
  | nil =>
    simp only
    constructor
    · exact Or.inl
    · rintro (h | ⟨⟨h1, rest, h2⟩, _⟩)
      · exact h
      · rw [← h1] at h2; exact absurd h2 (by simp)
  | cons c0 r =>
    simp only
    rw [UMap.valueAt_update]
    by_cases hc : c0 = c
    · subst hc
      rw [if_pos rfl, UMap.valueAt_update]
      by_cases hw : c0 :: r = w
      · subst hw
        rw [if_pos rfl, mem_idInsert]
        constructor
        · rintro (h | h)
          · exact Or.inl h
          · exact Or.inr ⟨⟨rfl, r, rfl⟩, h⟩
        · rintro (h | ⟨_, h⟩)
          · exact Or.inl h
          · exact Or.inr h
      · rw [if_neg hw]
        constructor
        · exact Or.inl
        · rintro (h | ⟨⟨h1, _⟩, _⟩)
          · exact h
          · exact absurd h1 hw
    · rw [if_neg hc]
      constructor
      · exact Or.inl
      · rintro (h | ⟨⟨h1, rest, h2⟩, _⟩)
        · exact h
        · rw [← h1] at h2
          injection h2 with h3 _
          exact absurd h3 hc

theorem isSome_MapToken (file_id : Nat) (sh : Shard) (tok : Str) (c : Nat) (w : Str) :
    (UMap.find w (UMap.valueAt c [] (MapToken file_id sh tok))).isSome ↔
      (UMap.find w (UMap.valueAt c [] sh)).isSome ∨
        (normalize tok = w ∧ ∃ rest, w = c :: rest) := by
  unfold MapToken
  cases hn : normalize tok with
  | nil =>
    simp only
    constructor
    · exact Or.inl
    · rintro (h | ⟨h1, rest, h2⟩)
      · exact h
      · rw [← h1] at h2; exact absurd h2 (by simp)
  | cons c0 r =>
    simp only
    rw [UMap.valueAt_update]
    by_cases hc : c0 = c
    · subst hc
      rw [if_pos rfl, UMap.find_update]
      by_cases hw : c0 :: r = w
      · subst hw
        rw [if_pos rfl]
        constructor
        · intro _; exact Or.inr ⟨rfl, r, rfl⟩
        · intro _; rfl
      · rw [if_neg hw]
        constructor
        · exact Or.inl
        · rintro (h | ⟨h1, _⟩)
          · exact h
          · exact absurd h1 hw
    · rw [if_neg hc]
      constructor
      · exact Or.inl
      · rintro (h | ⟨h1, rest, h2⟩)
        · exact h
        · rw [← h1] at h2
          injection h2 with h3 _
          exact absurd h3 hc

theorem MapToken_ok (file_id : Nat) (sh : Shard) (tok : Str) (h : ShardOK sh) :
    ShardOK (MapToken file_id sh tok) := by
  unfold MapToken
  cases hn : normalize tok with
  | nil => exact h
  | cons c0 r =>
    simp only
    refine ⟨UMap.keysOK_update _ _ _ _ h.1, ?_⟩
    intro e he
    rcases UMap.mem_update _ _ _ _ _ he with he | he
    · exact h.2 e he
    · rw [he]
      have hb : BucketOK (UMap.valueAt c0 [] sh) := h.valueAt c0
      refine ⟨UMap.keysOK_update _ _ _ _ hb.1, ?_⟩
      intro x hx
      rcases UMap.mem_update _ _ _ _ _ hx with hx | hx
      · exact hb.2 x hx
      · rw [hx]
        have hv : DocSetOK (UMap.valueAt (c0 :: r) [] (UMap.valueAt c0 [] sh)) :=
          UMap.valueAt_prop DocSetOK _ [] _ List.Pairwise.nil hb.2
        show DocSetOK (if file_id ∈ _ then _ else _)
        split
        · exact hv
        · exact setInsert_ok _ _ hv

theorem mem_MapTokens (file_id : Nat) (toks : List Str) (sh : Shard) (c : Nat) (w : Str)
    (d : Nat) :
    d ∈ UMap.valueAt w [] (UMap.valueAt c [] (toks.foldl (MapToken file_id) sh)) ↔
      d ∈ UMap.valueAt w [] (UMap.valueAt c [] sh) ∨
        ((∃ tok ∈ toks, normalize tok = w ∧ ∃ rest, w = c :: rest) ∧ d = file_id) := by
  induction toks generalizing sh with
  | nil => simp
  | cons tok rest ih =>
    simp only [List.foldl_cons, ih, mem_MapToken, List.mem_cons, exists_eq_or_imp]
    tauto

theorem isSome_MapTokens (file_id : Nat) (toks : List Str) (sh : Shard) (c : Nat) (w : Str) :
    (UMap.find w (UMap.valueAt c [] (toks.foldl (MapToken file_id) sh))).isSome ↔
      (UMap.find w (UMap.valueAt c [] sh)).isSome ∨
        (∃ tok ∈ toks, normalize tok = w ∧ ∃ rest, w = c :: rest) := by
  induction toks generalizing sh with
  | nil => simp
  | cons tok rest ih =>
    simp only [List.foldl_cons, ih, isSome_MapToken, List.mem_cons, exists_eq_or_imp]
    tauto

theorem MapTokens_ok (file_id : Nat) (toks : List Str) (sh : Shard) (h : ShardOK sh) :
    ShardOK (toks.foldl (MapToken file_id) sh) := by
  induction toks generalizing sh with
  | nil => exact h
  | cons tok rest ih => exact ih _ (MapToken_ok file_id sh tok h)

theorem mem_MapFile (file : Option Str) (file_id : Nat) (sh : Shard) (c : Nat) (w : Str)
    (d : Nat) :
    d ∈ UMap.valueAt w [] (UMap.valueAt c [] (MapFile file file_id sh)) ↔
      d ∈ UMap.valueAt w [] (UMap.valueAt c [] sh) ∨ (FileGives file c w ∧ d = file_id) := by
  unfold MapFile FileGives
  cases file with
  | none => simp
  | some input => simp only [mem_MapTokens, Option.some.injEq, exists_eq_left']

theorem isSome_MapFile (file : Option Str) (file_id : Nat) (sh : Shard) (c : Nat) (w : Str) :
    (UMap.find w (UMap.valueAt c [] (MapFile file file_id sh))).isSome ↔
      (UMap.find w (UMap.valueAt c [] sh)).isSome ∨ FileGives file c w := by
  unfold MapFile FileGives
  cases file with
  | none => simp
  | some input => simp only [isSome_MapTokens, Option.some.injEq, exists_eq_left']

theorem MapFile_ok (file : Option Str) (file_id : Nat) (sh : Shard) (h : ShardOK sh) :
    ShardOK (MapFile file file_id sh) := by
  unfold MapFile
  cases file with
  | none => exact h
  | some input => exact MapTokens_ok file_id _ sh h

end MapLemmas

section MapPhaseLemmas

theorem length_vecUpdate {α : Type} (g : α → α) (t : Nat) (l : List α) :
    (vecUpdate g t l).length = l.length := by
  induction l generalizing t with
  | nil => cases t <;> rfl
  | cons x xs ih =>
    cases t with
    | zero => rfl
    | succ t => simp [vecUpdate, ih]

theorem exists_mem_vecUpdate {α : Type} (P : α → Prop) (N : Prop) (g : α → α)
    (hg : ∀ x, P (g x) ↔ P x ∨ N) (t : Nat) (l : List α) (ht : t < l.length) :
    (∃ x ∈ vecUpdate g t l, P x) ↔ (∃ x ∈ l, P x) ∨ N := by
  induction l generalizing t with
  | nil => simp at ht
  | cons x xs ih =>
    cases t with
    | zero =>
      simp only [vecUpdate, List.mem_cons, exists_eq_or_imp, hg]
      generalize (∃ a ∈ xs, P a) = E
      tauto
    | succ t =>
      have ht' : t < xs.length := by simpa using ht
      simp only [vecUpdate, List.mem_cons, exists_eq_or_imp, ih t ht']
      generalize (∃ a ∈ xs, P a) = E
      tauto

theorem forall_mem_vecUpdate {α : Type} (Q : α → Prop) (g : α → α)
    (hg : ∀ x, Q x → Q (g x)) (t : Nat) (l : List α) (hl : ∀ x ∈ l, Q x) :
    ∀ x ∈ vecUpdate g t l, Q x := by
  induction l generalizing t with
  | nil => cases t <;> simp [vecUpdate]
  | cons y ys ih =>
    have hy : Q y := hl y (List.mem_cons_self _ _)
    have hys : ∀ x ∈ ys, Q x := fun x hx => hl x (List.mem_cons_of_mem _ hx)
    cases t with
    | zero =>
      intro x hx
      simp only [vecUpdate, List.mem_cons] at hx
      rcases hx with hx | hx
      · rw [hx]; exact hg y hy
      · exact hys x hx
    | succ t =>
      intro x hx
      simp only [vecUpdate, List.mem_cons] at hx
      rcases hx with hx | hx
      · rw [hx]; exact hy
      · exact ih t hys x hx

theorem MapPhase_cons (fs : Str → Option Str) (t : Nat) (rest : List Nat) (u : MapperUtils) :
    MapPhase fs (t :: rest) u = MapPhase fs rest (MapClaim fs t u) := rfl

/-- What the shards hold at the end of the map phase, in terms of what they held at its
start and of the files in the queue. -/
theorem MapPhase_inv (fs : Str → Option Str) (schedule : List Nat) :
    ∀ u : MapperUtils, schedule.length = u.queue_tasks.length →
      (∀ t ∈ schedule, t < u.partial_lists.length) →
      (∀ sh ∈ u.partial_lists, ShardOK sh) →
      (∀ sh ∈ (MapPhase fs schedule u).partial_lists, ShardOK sh) ∧
      (∀ c w d, ShardsHave (MapPhase fs schedule u).partial_lists c w d ↔
        ShardsHave u.partial_lists c w d ∨
          ∃ f ∈ u.queue_tasks, FileGives (fs f) c w ∧ d = UMap.valueAt f 0 u.file_ids) ∧
      (∀ c w, ShardsHaveWord (MapPhase fs schedule u).partial_lists c w ↔
        ShardsHaveWord u.partial_lists c w ∨ ∃ f ∈ u.queue_tasks, FileGives (fs f) c w) := by
  induction schedule with
  | nil =>
    intro u hlen _ hok
    have hq : u.queue_tasks = [] := List.length_eq_zero.1 hlen.symm
    refine ⟨hok, ?_, ?_⟩
    · intro c w d
      simp [MapPhase, hq]
    · intro c w
      simp [MapPhase, hq]
  | cons t rest ih =>
    intro u hlen ht hok
    obtain ⟨pl, ids, queue, sem, R, flag⟩ := u
    cases queue with
    | nil => simp at hlen
    | cons f q =>
      simp only at hlen ht hok
      have htl : t < pl.length := ht t (List.mem_cons_self _ _)
      rw [MapPhase_cons]
      have hstep : MapClaim fs t ⟨pl, ids, f :: q, sem, R, flag⟩ =
          ⟨vecUpdate (MapFile (fs f) (UMap.valueAt f 0 ids)) t pl,
            UMap.update f 0 id ids, q, sem, R, flag⟩ := rfl
      rw [hstep]
      obtain ⟨h1, h2, h3⟩ := ih
        ⟨vecUpdate (MapFile (fs f) (UMap.valueAt f 0 ids)) t pl,
          UMap.update f 0 id ids, q, sem, R, flag⟩
        (by simpa using hlen)
        (by
          intro t' ht'
          simp only [length_vecUpdate]
          exact ht t' (List.mem_cons_of_mem _ ht'))
        (forall_mem_vecUpdate ShardOK _ (fun sh h => MapFile_ok _ _ sh h) t pl hok)
      refine ⟨h1, ?_, ?_⟩
      · intro c w d
        rw [h2 c w d]
        simp only [UMap.valueAt_update_id]
        have hv : ShardsHave (vecUpdate (MapFile (fs f) (UMap.valueAt f 0 ids)) t pl) c w d ↔
            ShardsHave pl c w d ∨ (FileGives (fs f) c w ∧ d = UMap.valueAt f 0 ids) :=
          exists_mem_vecUpdate
            (fun sh => d ∈ UMap.valueAt w [] (UMap.valueAt c [] sh)) _ _
            (fun sh => mem_MapFile (fs f) _ sh c w d) t pl htl
        rw [hv]
        simp only [List.mem_cons, exists_eq_or_imp]
        exact or_assoc
      · intro c w
        rw [h3 c w]
        have hv : ShardsHaveWord (vecUpdate (MapFile (fs f) (UMap.valueAt f 0 ids)) t pl) c w ↔
            ShardsHaveWord pl c w ∨ FileGives (fs f) c w :=
          exists_mem_vecUpdate
            (fun sh => (UMap.find w (UMap.valueAt c [] sh)).isSome = true) _ _
            (fun sh => isSome_MapFile (fs f) _ sh c w) t pl htl
        rw [hv]
        simp only [List.mem_cons, exists_eq_or_imp]
        exact or_assoc

theorem ReadFilenamesLoop_queue (names : List Str) (i0 : Nat) (q : List Str)
    (reg : UMap Str Nat) : (ReadFilenamesLoop names i0 (q, reg)).1 = q ++ names := by
  induction names generalizing i0 q reg with
  | nil => simp [ReadFilenamesLoop]
  | cons x rest ih => simp [ReadFilenamesLoop, ih]

theorem shardsHave_replicate (n c : Nat) (w : Str) (d : Nat) :
    ¬ ShardsHave (List.replicate n []) c w d := by
  rintro ⟨sh, hsh, h⟩
  rw [List.eq_of_mem_replicate hsh] at h
  simp [UMap.valueAt, UMap.find] at h

theorem shardsHaveWord_replicate (n c : Nat) (w : Str) :
    ¬ ShardsHaveWord (List.replicate n []) c w := by
  rintro ⟨sh, hsh, h⟩
  rw [List.eq_of_mem_replicate hsh] at h
  simp [UMap.valueAt, UMap.find] at h

theorem shardOK_nil : ShardOK [] :=
  ⟨List.nodup_nil, fun _ he => absurd he (List.not_mem_nil _)⟩

/-- The shards at the end barrier of a run: every one is well formed, and together they
hold, for each word, the IDs of the files of the manifest in which the word occurs. -/
theorem map_phase_result (n R : Nat) (names : List Str) (fs : Str → Option Str)
    (schedule : List Nat) (hlen : schedule.length = names.length)
    (ht : ∀ t ∈ schedule, t < n) :
    (∀ sh ∈ (MapPhase fs schedule (afterRead (MapperUtils.init n R)
        (ReadFilenamesLoop names 0 ([], [])))).partial_lists, ShardOK sh) ∧
    (∀ c w d, ShardsHave (MapPhase fs schedule (afterRead (MapperUtils.init n R)
        (ReadFilenamesLoop names 0 ([], [])))).partial_lists c w d ↔
      ∃ f ∈ names, FileGives (fs f) c w ∧
        d = UMap.valueAt f 0 (ReadFilenamesLoop names 0 ([], [])).2) ∧
    (∀ c w, ShardsHaveWord (MapPhase fs schedule (afterRead (MapperUtils.init n R)
        (ReadFilenamesLoop names 0 ([], [])))).partial_lists c w ↔
      ∃ f ∈ names, FileGives (fs f) c w) := by
  have hq : (afterRead (MapperUtils.init n R)
      (ReadFilenamesLoop names 0 ([], []))).queue_tasks = names := by
    simp [afterRead, ReadFilenamesLoop_queue]
  have hp : (afterRead (MapperUtils.init n R)
      (ReadFilenamesLoop names 0 ([], []))).partial_lists = List.replicate n [] := rfl
  have hi : (afterRead (MapperUtils.init n R)
      (ReadFilenamesLoop names 0 ([], []))).file_ids =
      (ReadFilenamesLoop names 0 ([], [])).2 := rfl
  obtain ⟨h1, h2, h3⟩ := MapPhase_inv fs schedule
    (afterRead (MapperUtils.init n R) (ReadFilenamesLoop names 0 ([], [])))
    (by rw [hq]; exact hlen)
    (by rw [hp]; simpa using ht)
    (by
      rw [hp]
      intro sh hsh
      rw [List.eq_of_mem_replicate hsh]
      exact shardOK_nil)
  refine ⟨h1, ?_, ?_⟩
  · intro c w d
    rw [h2 c w d, hq, hp, hi]
    simp only [shardsHave_replicate, false_or]
  · intro c w
    rw [h3 c w, hq, hp]
    simp only [shardsHaveWord_replicate, false_or]

end MapPhaseLemmas

section ReduceLemmas

theorem bucket_perm_of_find_eq (b1 b2 : Bucket) (h1 : UMap.KeysOK b1) (h2 : UMap.KeysOK b2)
    (h : ∀ w, UMap.find w b1 = UMap.find w b2) : b1.Perm b2 := by
  apply (List.perm_ext_iff_of_nodup (List.Nodup.of_map _ h1) (List.Nodup.of_map _ h2)).2
  rintro ⟨w, s⟩
  constructor
  · intro hm
    apply UMap.mem_of_find
    rw [← h w]
    exact UMap.find_of_mem w s b1 h1 hm
  · intro hm
    apply UMap.mem_of_find
    rw [h w]
    exact UMap.find_of_mem w s b2 h2 hm

theorem stdSort_congr (b1 b2 : Bucket) (h1 : UMap.KeysOK b1) (h2 : UMap.KeysOK b2)
    (hp : b1.Perm b2) : stdSort b1 = stdSort b2 :=
  sort_unique (stdSort b2) (stdSort b1)
    (((stdSort_perm b1).trans hp).trans (stdSort_perm b2).symm)
    (stdSort_sorted b2 h2) (stdSort_sorted b1 h1)

/-- The text written depends on the bucket only through what `find` answers. -/
theorem writeBucket_congr (b1 b2 : Bucket) (h1 : UMap.KeysOK b1) (h2 : UMap.KeysOK b2)
    (h : ∀ w, UMap.find w b1 = UMap.find w b2) : writeBucket b1 = writeBucket b2 := by
  have hp := bucket_perm_of_find_eq b1 b2 h1 h2 h
  unfold writeBucket
  rw [stdSort_congr b1 b2 h1 h2 hp]
  by_cases hb : b1 = []
  · have hb2 : b2 = [] := by
      subst hb
      exact List.Perm.nil_eq hp |>.symm
    simp [hb, hb2]
  · have hb2 : b2 ≠ [] := by
      intro hb2
      subst hb2
      exact hb (List.Perm.eq_nil hp)
    simp [hb, hb2]

/-- Two lists of well-formed shards that hold the same words with the same IDs give the
same text for every letter. -/
theorem written_eq_of_same_content (c : Nat) (s1 s2 : List Shard)
    (h1 : ∀ sh ∈ s1, ShardOK sh) (h2 : ∀ sh ∈ s2, ShardOK sh)
    (hd : ∀ w d, ShardsHave s1 c w d ↔ ShardsHave s2 c w d)
    (hw : ∀ w, ShardsHaveWord s1 c w ↔ ShardsHaveWord s2 c w) :
    writeBucket (mergeLoop c s1 []).2 = writeBucket (mergeLoop c s2 []).2 := by
  have ok1 := mergeLoop_ok c s1 [] bucketOK_nil h1
  have ok2 := mergeLoop_ok c s2 [] bucketOK_nil h2
  apply writeBucket_congr _ _ ok1.1 ok2.1
  apply find_eq_of_same_content _ _ ok1 ok2
  · intro w
    rw [isSome_merged, isSome_merged]
    exact hw w
  · intro w d
    rw [mem_merged c s1 h1, mem_merged c s2 h2]
    exact hd w d

theorem GatePhase_partial_lists (order : List Nat) (u : MapperUtils) :
    (GatePhase order u).partial_lists = u.partial_lists := by
  induction order generalizing u with
  | nil => rfl
  | cons t rest ih =>
    rw [GatePhase_cons, ih]
    unfold GateSection
    split <;> rfl

theorem valueAt_init_final_lists (ls : List Nat) (m : UMap Nat Bucket)
    (hm : ∀ c, UMap.valueAt c [] m = []) (c : Nat) :
    UMap.valueAt c [] (ls.foldl (fun m c => UMap.update c [] (fun _ => []) m) m) = [] := by
  induction ls generalizing m with
  | nil => exact hm c
  | cons x rest ih =>
    simp only [List.foldl_cons]
    apply ih
    intro c'
    rw [UMap.valueAt_update]
    split
    · rfl
    · exact hm c'

/-- With every output file creatable, the reduce loop ends normally and writes, for each
letter of the queue in turn, the text of the bucket merged from the shards as they were
when the loop began. -/
theorem ReduceLoop_files (canCreate : Str → Bool) (hc : ∀ name, canCreate name = true)
    (queue : List Nat) :
    ∀ r : ReducerUtils, queue.Nodup → (∀ c ∈ queue, UMap.valueAt c [] r.final_lists = []) →
      ∃ r', ReduceLoop canCreate queue r = Except.ok r' ∧
        r'.files = r.files ++
          queue.map (fun c => (outputName c, writeBucket (mergeLoop c r.partial_lists []).2)) := by
  induction queue with
  | nil =>
    intro r _ _
    exact ⟨r, rfl, by simp⟩
  | cons c rest ih =>
    intro r hnd hfl
    rw [List.nodup_cons] at hnd
    have hfc : UMap.valueAt c [] r.final_lists = [] := hfl c (List.mem_cons_self _ _)
    have hstep : ReduceLoop canCreate (c :: rest) r =
        ReduceLoop canCreate rest
          { partial_lists := (mergeLoop c r.partial_lists []).1,
            final_lists :=
              UMap.update c [] (fun _ => (mergeLoop c r.partial_lists []).2) r.final_lists,
            queue_tasks := rest,
            files := r.files ++
              [(outputName c, writeBucket (mergeLoop c r.partial_lists []).2)] } := by
      simp only [ReduceLoop, ReduceLetter, hc, hfc, if_true]
    rw [hstep]
    obtain ⟨r', hr', hf'⟩ := ih
      { partial_lists := (mergeLoop c r.partial_lists []).1,
        final_lists :=
          UMap.update c [] (fun _ => (mergeLoop c r.partial_lists []).2) r.final_lists,
        queue_tasks := rest,
        files := r.files ++
          [(outputName c, writeBucket (mergeLoop c r.partial_lists []).2)] } hnd.2 (by
      intro c' hc'
      show UMap.valueAt c' []
        (UMap.update c [] (fun _ => (mergeLoop c r.partial_lists []).2) r.final_lists) = []
      rw [UMap.valueAt_update]
      have hne : ¬ c = c' := fun h => hnd.1 (h ▸ hc')
      rw [if_neg hne]
      exact hfl c' (List.mem_cons_of_mem _ hc'))
    refine ⟨r', hr', ?_⟩
    rw [hf']
    simp only [List.map_cons, List.append_assoc, List.singleton_append]
    congr 2
    apply List.map_congr_left
    intro c' _
    congr 2
    exact mergeLoop_snd_congr c' _ _ _ (mergeLoop_keeps_contents c c' r.partial_lists [])

theorem letters_nodup : letters.Nodup := by decide

end ReduceLemmas

section RunLemmas

theorem MapPhase_gate_fields (fs : Str → Option Str) (schedule : List Nat) :
    ∀ u : MapperUtils,
      (MapPhase fs schedule u).semaphore = u.semaphore ∧
      (MapPhase fs schedule u).sem_activated = u.sem_activated ∧
      (MapPhase fs schedule u).num_reducer_threads = u.num_reducer_threads := by
  induction schedule with
  | nil => intro u; exact ⟨rfl, rfl, rfl⟩
  | cons t rest ih =>
    intro u
    rw [MapPhase_cons]
    obtain ⟨h1, h2, h3⟩ := ih (MapClaim fs t u)
    rw [h1, h2, h3]
    obtain ⟨pl, ids, queue, sem, R, flag⟩ := u
    cases queue with
    | nil => exact ⟨rfl, rfl, rfl⟩
    | cons f q => exact ⟨rfl, rfl, rfl⟩

/-- With at least one mapper the gate leaves exactly `num_reducer_threads` units. -/
theorem GatePhase_range_semaphore (n : Nat) (hn : 1 ≤ n) (u : MapperUtils)
    (hflag : u.sem_activated = 0) :
    (GatePhase (List.range n) u).semaphore = u.semaphore + u.num_reducer_threads := by
  obtain ⟨m, rfl⟩ : ∃ m, n = m + 1 := ⟨n - 1, by omega⟩
  rw [List.range_succ_eq_map, GatePhase_fired 0 _ u hflag]

/-- The result of a run with at least one mapper and one reducer, whose manifest is read
and whose output files can all be created: the process ends with exit code 0 and has
written, for each letter from `a` to `z`, the text of the bucket merged from the shards
of the map phase. -/
theorem run_eq (n : Nat) (hn : 1 ≤ n) (input : Str) (names : List Str)
    (hread : ReadFilenames (some input) [] [] =
      ReadResult.filled (ReadFilenamesLoop names 0 ([], [])))
    (fs : Str → Option Str) (schedule : List Nat) :
    run n 1 (some input) fs (fun _ => true) schedule =
      some (0, letters.map (fun c => (outputName c,
        writeBucket (mergeLoop c (MapPhase fs schedule (afterRead (MapperUtils.init n 1)
          (ReadFilenamesLoop names 0 ([], [])))).partial_lists []).2))) := by
  obtain ⟨r', hr', hf'⟩ := ReduceLoop_files (fun _ => true) (fun _ => rfl) letters
    (ReducerUtils.init (MapPhase fs schedule (afterRead (MapperUtils.init n 1)
      (ReadFilenamesLoop names 0 ([], [])))).partial_lists)
    letters_nodup
    (fun c _ => valueAt_init_final_lists letters [] (fun _ => rfl) c)
  obtain ⟨g1, g2, g3⟩ := MapPhase_gate_fields fs schedule
    (afterRead (MapperUtils.init n 1) (ReadFilenamesLoop names 0 ([], [])))
  have hsem : (GatePhase (List.range n) (MapPhase fs schedule
      (afterRead (MapperUtils.init n 1) (ReadFilenamesLoop names 0 ([], []))))).semaphore =
      1 := by
    rw [GatePhase_range_semaphore n hn _ (by rw [g2]; rfl), g1, g3]
    rfl
  have e1 : (MapperUtils.init n 1).queue_tasks = [] := rfl
  have e2 : (MapperUtils.init n 1).file_ids = [] := rfl
  simp only [run, e1, e2, hread, Reduce, GatePhase_partial_lists, hsem, ne_eq,
    not_true_eq_false, if_false, lt_self_iff_false]
  have hq : (ReducerUtils.init (MapPhase fs schedule (afterRead (MapperUtils.init n 1)
      (ReadFilenamesLoop names 0 ([], [])))).partial_lists).queue_tasks = letters := rfl
  rw [hq, hr']
  simp only [hf']
  simp [ReducerUtils.init]

end RunLemmas

/-- C1. For every manifest `names`, every number `n` of mappers and every assignment
`schedule` of the files of the queue to mappers, every document `D` of the manifest and
every non-empty word `c :: rest` got by normalizing a token of `D`: in the bucket that the
merge loop builds for the letter `c` from the shards of the map phase, the word has an
entry, and the ID the registry gives `D` occurs in its ID set exactly once. -/
theorem word_holds_document_once (n R : Nat) (names : List Str) (fs : Str → Option Str)
    (schedule : List Nat) (hlen : schedule.length = names.length)
    (ht : ∀ t ∈ schedule, t < n)
    (D : Str) (hD : D ∈ names) (input : Str) (hin : fs D = some input)
    (tok : Str) (htok : tok ∈ tokens input) (c : Nat) (rest : Str)
    (hW : normalize tok = c :: rest) :
    ∃ ids,
      UMap.find (c :: rest)
        (mergeLoop c (MapPhase fs schedule (afterRead (MapperUtils.init n R)
          (ReadFilenamesLoop names 0 ([], [])))).partial_lists []).2 = some ids ∧
      ids.count (UMap.valueAt D 0 (ReadFilenamesLoop names 0 ([], [])).2) = 1 := by
  obtain ⟨hok, hhave, _⟩ := map_phase_result n R names fs schedule hlen ht
  have h1 := (hhave c (c :: rest) (UMap.valueAt D 0 (ReadFilenamesLoop names 0 ([], [])).2)).2
    ⟨D, hD, ⟨input, hin, tok, htok, hW, rest, rfl⟩, rfl⟩
  have h2 := (mem_merged c _ hok (c :: rest) _).2 h1
  have hbok := mergeLoop_ok c _ [] bucketOK_nil hok
  cases hfind : UMap.find (c :: rest)
      (mergeLoop c (MapPhase fs schedule (afterRead (MapperUtils.init n R)
        (ReadFilenamesLoop names 0 ([], [])))).partial_lists []).2 with
  | none =>
    simp [UMap.valueAt, hfind] at h2
  | some ids =>
    refine ⟨ids, rfl, ?_⟩
    have hmem : UMap.valueAt D 0 (ReadFilenamesLoop names 0 ([], [])).2 ∈ ids := by
      simpa [UMap.valueAt, hfind] using h2
    exact docSet_count (hbok.2 _ (UMap.mem_of_find _ _ _ hfind)) hmem

/-- Witness of C1: the scenario of the specification with two mappers, `file2` mapped by
mapper 0 and `file1` by mapper 1; the token `Cat` of `file1` gives the word `cat`. -/
theorem word_holds_document_once_witness :
    ∃ ids,
      UMap.find (99 :: bytes "at")
        (mergeLoop 99 (MapPhase scenarioFiles [1, 0] (afterRead (MapperUtils.init 2 1)
          (ReadFilenamesLoop [bytes "file1", bytes "file2"] 0 ([], [])))).partial_lists
          []).2 = some ids ∧
      ids.count (UMap.valueAt (bytes "file1") 0
        (ReadFilenamesLoop [bytes "file1", bytes "file2"] 0 ([], [])).2) = 1 :=
  word_holds_document_once 2 1 [bytes "file1", bytes "file2"] scenarioFiles [1, 0]
    (by decide) (by decide) (bytes "file1") (by decide) (bytes "Cat cat DOG!") (by decide)
    (bytes "Cat") (by decide) 99 (bytes "at") (by decide)

/-- With one reducer, a manifest that is read and output files that can all be created,
two runs with any numbers of mappers (at least one) and any assignments of the files to
the mappers end with the same exit code and the same 26 files with the same contents;
and the files are the same again when the shards are merged in another order and the
letters are processed in another order. -/
theorem single_reducer_output_is_independent_of_mappers (input : Str) (names : List Str)
    (hread : ReadFilenames (some input) [] [] =
      ReadResult.filled (ReadFilenamesLoop names 0 ([], [])))
    (fs : Str → Option Str) (n1 n2 : Nat) (hn1 : 1 ≤ n1) (hn2 : 1 ≤ n2)
    (s1 s2 : List Nat) (hl1 : s1.length = names.length) (hl2 : s2.length = names.length)
    (ht1 : ∀ t ∈ s1, t < n1) (ht2 : ∀ t ∈ s2, t < n2) :
    run n1 1 (some input) fs (fun _ => true) s1 =
      run n2 1 (some input) fs (fun _ => true) s2 ∧
    ∃ files, run n1 1 (some input) fs (fun _ => true) s1 = some (0, files) ∧
      files.map Prod.fst = letters.map outputName ∧
      ∀ (shards : List Shard) (order : List Nat),
        shards.Perm (MapPhase fs s1 (afterRead (MapperUtils.init n1 1)
          (ReadFilenamesLoop names 0 ([], [])))).partial_lists →
        order.Perm letters →
        ∃ r, ReduceLoop (fun _ => true) order (ReducerUtils.init shards) = Except.ok r ∧
          r.files.Perm files := by
  obtain ⟨ok1, have1, word1⟩ := map_phase_result n1 1 names fs s1 hl1 ht1
  obtain ⟨ok2, have2, word2⟩ := map_phase_result n2 1 names fs s2 hl2 ht2
  refine ⟨?_, _, run_eq n1 hn1 input names hread fs s1, ?_, ?_⟩
  · rw [run_eq n1 hn1 input names hread, run_eq n2 hn2 input names hread]
    congr 2
    apply List.map_congr_left
    intro c _
    congr 1
    apply written_eq_of_same_content c _ _ ok1 ok2
    · intro w d; rw [have1, have2]
    · intro w; rw [word1, word2]
  · simp only [List.map_map]
    apply List.map_congr_left
    intro c _
    rfl
  · intro shards order hps hpo
    obtain ⟨r, hr, hf⟩ := ReduceLoop_files (fun _ => true) (fun _ => rfl) order
      (ReducerUtils.init shards) (hpo.nodup_iff.2 letters_nodup)
      (fun c _ => valueAt_init_final_lists letters [] (fun _ => rfl) c)
    refine ⟨r, hr, ?_⟩
    rw [hf]
    have hfiles : (ReducerUtils.init shards).files = [] := rfl
    have hpl : (ReducerUtils.init shards).partial_lists = shards := rfl
    rw [hfiles, hpl, List.nil_append]
    have hcongr : order.map (fun c => (outputName c, writeBucket (mergeLoop c shards []).2)) =
        order.map (fun c => (outputName c,
          writeBucket (mergeLoop c (MapPhase fs s1 (afterRead (MapperUtils.init n1 1)
            (ReadFilenamesLoop names 0 ([], [])))).partial_lists []).2)) := by
      apply List.map_congr_left
      intro c _
      congr 1
      apply written_eq_of_same_content c _ _ (fun sh h => ok1 sh (hps.mem_iff.1 h)) ok1
      · intro w d
        constructor
        · rintro ⟨sh, h, h'⟩; exact ⟨sh, hps.mem_iff.1 h, h'⟩
        · rintro ⟨sh, h, h'⟩; exact ⟨sh, hps.mem_iff.2 h, h'⟩
      · intro w
        constructor
        · rintro ⟨sh, h, h'⟩; exact ⟨sh, hps.mem_iff.1 h, h'⟩
        · rintro ⟨sh, h, h'⟩; exact ⟨sh, hps.mem_iff.2 h, h'⟩
    rw [hcongr]
    exact hpo.map _

/-- C5, the code at a concrete input: the scenario of the specification with two mappers
(`file1` mapped by mapper 1, `file2` by mapper 0) and three reducers. The manifest gives
the names `file1`, `file2`. At the end of the map phase each shard holds `cat` and `dog`.
The merge loop for the letter `c` reads both shards, leaves them as they are and, run by
itself, gives `cat` the IDs 1 and 2. The merge loop for the letter `a` writes to both
shards: `operator[]` puts an empty table for `a` in each. With several reducers these
loops run at the same time on the same shards, with no lock. -/
theorem reducers_write_the_shards_they_read :
    ReadFilenames (some (bytes "2\nfile1\nfile2\n")) [] [] =
      ReadResult.filled (ReadFilenamesLoop [bytes "file1", bytes "file2"] 0 ([], [])) ∧
    (MapPhase scenarioFiles [1, 0] (afterRead (MapperUtils.init 2 3)
      (ReadFilenamesLoop [bytes "file1", bytes "file2"] 0 ([], [])))).partial_lists =
      [[(100, [(bytes "dog", [2])]), (99, [(bytes "cat", [2])])],
       [(99, [(bytes "cat", [1])]), (100, [(bytes "dog", [1])])]] ∧
    (mergeLoop 99
      [[(100, [(bytes "dog", [2])]), (99, [(bytes "cat", [2])])],
       [(99, [(bytes "cat", [1])]), (100, [(bytes "dog", [1])])]] []).1 =
      [[(100, [(bytes "dog", [2])]), (99, [(bytes "cat", [2])])],
       [(99, [(bytes "cat", [1])]), (100, [(bytes "dog", [1])])]] ∧
    (mergeLoop 99
      [[(100, [(bytes "dog", [2])]), (99, [(bytes "cat", [2])])],
       [(99, [(bytes "cat", [1])]), (100, [(bytes "dog", [1])])]] []).2 =
      [(bytes "cat", [1, 2])] ∧
    (mergeLoop 97
      [[(100, [(bytes "dog", [2])]), (99, [(bytes "cat", [2])])],
       [(99, [(bytes "cat", [1])]), (100, [(bytes "dog", [1])])]] []).1 =
      [[(100, [(bytes "dog", [2])]), (99, [(bytes "cat", [2])]), (97, [])],
       [(99, [(bytes "cat", [1])]), (100, [(bytes "dog", [1])]), (97, [])]] :=
  ⟨by decide, by decide, by decide, by decide, by decide⟩

/-- C9, the code at a concrete input. The manifest lists `file1` and `file3`, and `file3`
cannot be opened. The run ends with exit code 0 and writes the index of `file1` alone,
as the run on the manifest without `file3` does: for a file that cannot be opened the
token loop of `Map` does not run, and nothing ends the process. -/
theorem unopenable_document_is_skipped :
    scenarioFiles (bytes "file3") = none ∧
    run 1 1 (some (bytes "2\nfile1\nfile3\n")) scenarioFiles (fun _ => true) [0, 0] =
      some (0, letters.map (fun c => (outputName c,
        if c = 99 then bytes "cat:[1]\n" else if c = 100 then bytes "dog:[1]\n" else []))) ∧
    run 1 1 (some (bytes "2\nfile1\nfile3\n")) scenarioFiles (fun _ => true) [0, 0] =
      run 1 1 (some (bytes "1\nfile1\n")) scenarioFiles (fun _ => true) [0] ∧
    ∀ (file_id : Nat) (shard : Shard), MapFile none file_id shard = shard :=
  ⟨by decide, by decide, by decide, fun _ _ => rfl⟩

/-- The end-to-end scenario of the specification, with two mappers and one reducer:
`c.txt` is `cat:[1 2]`, `d.txt` is `dog:[1 2]`, the other 24 files are empty. -/
theorem scenario_output :
    run 2 1 (some (bytes "2\nfile1\nfile2\n")) scenarioFiles (fun _ => true) [0, 1] =
      some (0, letters.map (fun c => (outputName c,
        if c = 99 then bytes "cat:[1 2]\n" else if c = 100 then bytes "dog:[1 2]\n"
        else []))) := by
  decide

/-- The second scenario of the specification: one file holding `ant ant` gives the line
`ant:[1]` in `a.txt`. -/
theorem scenario_repeated_word :
    run 1 1 (some (bytes "1\nfile1\n"))
        (fun name => if name = bytes "file1" then some (bytes "ant ant") else none)
        (fun _ => true) [0] =
      some (0, letters.map (fun c => (outputName c,
        if c = 97 then bytes "ant:[1]\n" else []))) := by
  decide

/-- A manifest that cannot be opened ends the run with exit code 1 before any file is
written; a first line without a number makes `stoi` throw and the run has no exit code;
a manifest that ends before the announced number of names repeats what `getline` left. -/
theorem manifest_reading :
    run 1 1 none scenarioFiles (fun _ => true) [] = some (1, []) ∧
    run 1 1 (some (bytes "two\nfile1\nfile2\n")) scenarioFiles (fun _ => true) [0, 0] = none ∧
    ReadFilenames (some (bytes "3\nfile1\nfile2")) [] [] =
      ReadResult.filled
        (ReadFilenamesLoop [bytes "file1", bytes "file2", bytes "file2"] 0 ([], [])) := by
  decide

/-- The letters of the queue are `a` to `z`, and the file of a letter is named by the
letter followed by `.txt`. -/
theorem letter_files_are_named :
    letters = bytes "abcdefghijklmnopqrstuvwxyz" ∧ outputName 99 = bytes "c.txt" ∧
    ∀ c, outputName c = c :: bytes ".txt" :=
  ⟨by decide, by decide, fun _ => rfl⟩

/-- An output file that cannot be created ends the run with exit code 1, and the files
written before it stay. -/
theorem failed_creation_keeps_earlier_files :
    run 1 1 (some (bytes "1\nfile1\n")) scenarioFiles
        (fun name => decide (name ≠ bytes "c.txt")) [0] =
      some (1, [(bytes "a.txt", []), (bytes "b.txt", [])]) := by
  decide

end MapReduce
